import Mathlib

/-!
Verification of the `toqito` channel-metric / state-exclusion core against its
natural-language specification.

The source files embedded here are:
* `src/toqito/channel_metrics/diamond_norm.py`
* `src/toqito/state_opt/state_exclusion.py`
* `src/toqito/super_operators/realignment.py`

Modelling conventions.

* Complex floating-point scalars are idealised as complex numbers with rational
  real and imaginary parts (`Cq` below); this keeps every definition executable
  and every concrete evaluation decidable.
* NumPy arrays are untyped runtime-shaped matrices (`Mat` below): a pair of
  natural-number dimensions together with a total entry function.  Shape checks
  in the Python source are runtime comparisons of the dimension fields, exactly
  as `ndarray.shape` comparisons are.
* The external SDP solvers (`cvxpy` for `diamond_norm`, `picos` for
  `state_exclusion`) are opaque black boxes per spec section 1 and section 4.1.
  Each engine is embedded as (a) a problem-construction function producing a
  first-order description of the semidefinite program handed to the solver and
  (b) a wrapper that applies an arbitrary solver function (passed as an
  argument) to that description and post-processes its answer exactly as the
  Python code post-processes `problem.value` / `solution.value`.
* Python `raise ValueError(...)` becomes an `Except` error value.
-/

/-- Complex numbers with rational components: the idealisation of the complex
floating-point scalars used by the Python source. -/
structure Cq where
  re : ℚ
  im : ℚ
deriving DecidableEq

theorem Cq.ext {a b : Cq} (h1 : a.re = b.re) (h2 : a.im = b.im) : a = b := by
  cases a; cases b; cases h1; cases h2; rfl

instance : Zero Cq := ⟨⟨0, 0⟩⟩
instance : One Cq := ⟨⟨1, 0⟩⟩
instance : Add Cq := ⟨fun a b => ⟨a.re + b.re, a.im + b.im⟩⟩
instance : Neg Cq := ⟨fun a => ⟨-a.re, -a.im⟩⟩
instance : Sub Cq := ⟨fun a b => ⟨a.re - b.re, a.im - b.im⟩⟩
instance : Mul Cq := ⟨fun a b => ⟨a.re * b.re - a.im * b.im, a.re * b.im + a.im * b.re⟩⟩
instance : Star Cq := ⟨fun a => ⟨a.re, -a.im⟩⟩
instance : SMul ℚ Cq := ⟨fun q a => ⟨q * a.re, q * a.im⟩⟩
instance : Inhabited Cq := ⟨0⟩

@[simp] theorem Cq.zero_re : (0 : Cq).re = 0 := rfl
@[simp] theorem Cq.zero_im : (0 : Cq).im = 0 := rfl
@[simp] theorem Cq.one_re : (1 : Cq).re = 1 := rfl
@[simp] theorem Cq.one_im : (1 : Cq).im = 0 := rfl
@[simp] theorem Cq.add_re (a b : Cq) : (a + b).re = a.re + b.re := rfl
@[simp] theorem Cq.add_im (a b : Cq) : (a + b).im = a.im + b.im := rfl
@[simp] theorem Cq.neg_re (a : Cq) : (-a).re = -a.re := rfl
@[simp] theorem Cq.neg_im (a : Cq) : (-a).im = -a.im := rfl
@[simp] theorem Cq.sub_re (a b : Cq) : (a - b).re = a.re - b.re := rfl
@[simp] theorem Cq.sub_im (a b : Cq) : (a - b).im = a.im - b.im := rfl
@[simp] theorem Cq.mul_re (a b : Cq) : (a * b).re = a.re * b.re - a.im * b.im := rfl
@[simp] theorem Cq.mul_im (a b : Cq) : (a * b).im = a.re * b.im + a.im * b.re := rfl
@[simp] theorem Cq.star_re (a : Cq) : (star a).re = a.re := rfl
@[simp] theorem Cq.star_im (a : Cq) : (star a).im = -a.im := rfl
@[simp] theorem Cq.smul_re (q : ℚ) (a : Cq) : (q • a).re = q * a.re := rfl
@[simp] theorem Cq.smul_im (q : ℚ) (a : Cq) : (q • a).im = q * a.im := rfl

instance : AddCommMonoid Cq where
  add_assoc a b c := by apply Cq.ext <;> simp <;> ring
  zero_add a := by apply Cq.ext <;> simp
  add_zero a := by apply Cq.ext <;> simp
  add_comm a b := by apply Cq.ext <;> simp <;> ring
  nsmul := nsmulRec

/-- Real part of a `Cq`, as an additive monoid morphism (so that it commutes
with finite sums). -/
def Cq.reHom : Cq →+ ℚ := { toFun := Cq.re, map_zero' := rfl, map_add' := fun _ _ => rfl }

/-- Imaginary part of a `Cq`, as an additive monoid morphism. -/
def Cq.imHom : Cq →+ ℚ := { toFun := Cq.im, map_zero' := rfl, map_add' := fun _ _ => rfl }

theorem Cq.re_sum {α : Type} (s : Finset α) (f : α → Cq) :
    (∑ i ∈ s, f i).re = ∑ i ∈ s, (f i).re :=
  map_sum Cq.reHom f s

theorem Cq.im_sum {α : Type} (s : Finset α) (f : α → Cq) :
    (∑ i ∈ s, f i).im = ∑ i ∈ s, (f i).im :=
  map_sum Cq.imHom f s

/-- Squared modulus of a `Cq`. -/
def Cq.normSq (a : Cq) : ℚ := a.re * a.re + a.im * a.im

/-- An untyped, runtime-shaped matrix: the idealisation of a NumPy `ndarray`.
The entry function is total; only indices below `rows`/`cols` are meaningful
(matrix operations below only ever read in-range entries of their operands). -/
structure Mat where
  rows : ℕ
  cols : ℕ
  entry : ℕ → ℕ → Cq

/-- The empty matrix, used as the default for out-of-range list reads. -/
def Mat.empty : Mat := ⟨0, 0, fun _ _ => 0⟩

instance : Inhabited Mat := ⟨Mat.empty⟩

/-- Entrywise difference (`numpy` subtraction of same-shaped arrays). -/
def Mat.sub (A B : Mat) : Mat := ⟨A.rows, A.cols, fun i j => A.entry i j - B.entry i j⟩

/-- Entrywise sum. -/
def Mat.add (A B : Mat) : Mat := ⟨A.rows, A.cols, fun i j => A.entry i j + B.entry i j⟩

/-- Conjugate transpose (`.conj().T` / `.H`). -/
def Mat.cT (A : Mat) : Mat := ⟨A.cols, A.rows, fun i j => star (A.entry j i)⟩

/-- Rational scalar multiple of a matrix. -/
def Mat.smul (q : ℚ) (A : Mat) : Mat := ⟨A.rows, A.cols, fun i j => q • A.entry i j⟩

/-- `(A.conj().T + A) / 2`, the Hermitization step of `diamond_norm`
(line 64 of `diamond_norm.py`). -/
def Mat.hermitize (A : Mat) : Mat := Mat.smul (1 / 2) (A.cT.add A)

/-- Matrix product. -/
def Mat.mul (A B : Mat) : Mat :=
  ⟨A.rows, B.cols, fun i j => ∑ k ∈ Finset.range A.cols, A.entry i k * B.entry k j⟩

/-- Trace of a (square) matrix. -/
def Mat.trace (A : Mat) : Cq := ∑ i ∈ Finset.range A.rows, A.entry i i

/-- The `n × n` identity matrix (`np.eye(n)` / `picos.I(n)`). -/
def Mat.idMat (n : ℕ) : Mat := ⟨n, n, fun i j => if i = j then 1 else 0⟩

/-- The all-zeros matrix of a given shape. -/
def Mat.zeros (r c : ℕ) : Mat := ⟨r, c, fun _ _ => 0⟩

/-- Kronecker product (`cvxpy.kron` / `np.kron`). -/
def Mat.kron (A B : Mat) : Mat :=
  ⟨A.rows * B.rows, A.cols * B.cols,
   fun i j => A.entry (i / B.rows) (j / B.cols) * B.entry (i % B.rows) (j % B.cols)⟩

/-- Outer product `v @ v.conj().T` of a column vector with itself. -/
def Mat.outer (v : Mat) : Mat := v.mul v.cT

/-- The Hermitian quadratic form `xᴴ A x`, summed over the in-range entries. -/
def Mat.qform (A : Mat) (x : ℕ → Cq) : Cq :=
  ∑ i ∈ Finset.range A.rows, ∑ j ∈ Finset.range A.cols, star (x i) * A.entry i j * x j

/-- Hermitian predicate: square shape and entrywise equality with the
conjugate transpose. -/
def Mat.Herm (A : Mat) : Prop := A.rows = A.cols ∧ ∀ i j, A.entry i j = star (A.entry j i)

/-- Positive semidefiniteness, expressed through the quadratic form: `xᴴ A x`
is real and nonnegative for every vector `x`. -/
def Mat.PSD (A : Mat) : Prop := ∀ x : ℕ → Cq, 0 ≤ (A.qform x).re ∧ (A.qform x).im = 0

/-- Löwner order `A ⪯ B`: the difference `B - A` is positive semidefinite. -/
def Mat.loewnerLE (A B : Mat) : Prop := Mat.PSD (B.sub A)

/-! ## Diamond norm engine (`diamond_norm.py`) -/

/-- The two `ValueError` raises of `diamond_norm` (lines 51-56). -/
inductive DNErr where
  | dimensionMismatch
  | notSquare
deriving DecidableEq

/-- First-order description of the semidefinite program that `diamond_norm`
hands to `cvxpy` (lines 67-84).  The fixed parts of the program are carried by
the field meanings:

* `rho` is a complex `rhoDim × rhoDim` variable constrained Hermitian, PSD and
  trace-one (lines 67-70);
* `w` is a complex `wDim × wDim` variable constrained Hermitian and PSD
  (lines 73-75);
* the remaining constraint is `w ⪯ I_kronId ⊗! rho` in the Löwner order
  (line 77), where `I_kronId` is the `kronId × kronId` identity;
* the objective is to maximise `Re Tr(objParamᴴ w)` with the parameter matrix
  `objParam` (lines 79-83).

`DNProblem.Feasible` and `DNProblem.objective` below spell out this reading. -/
structure DNProblem where
  rhoDim : ℕ
  wDim : ℕ
  kronId : ℕ
  objParam : Mat

/-- A point `(rho, w)` satisfying all constraints of a `DNProblem`. -/
def DNProblem.Feasible (P : DNProblem) (rho w : Mat) : Prop :=
  rho.rows = P.rhoDim ∧ rho.cols = P.rhoDim ∧ rho.Herm ∧ rho.PSD ∧ rho.trace = 1 ∧
  w.rows = P.wDim ∧ w.cols = P.wDim ∧ w.Herm ∧ w.PSD ∧
  Mat.loewnerLE w ((Mat.idMat P.kronId).kron rho)

/-- The objective value `Re Tr(objParamᴴ w)` of a `DNProblem` at `w`. -/
def DNProblem.objective (P : DNProblem) (w : Mat) : ℚ :=
  (Mat.trace (P.objParam.cT.mul w)).re

/-- The problem `diamond_norm` constructs after its validation succeeds
(lines 58-83 of `diamond_norm.py`): `dim_squared` is the side length of the
first Choi matrix, `dim` is the integer truncation of its square root
(`int(np.sqrt(dim_squared))`, idealised as `Nat.sqrt`), and the objective
parameter is the Hermitized difference of the two Choi matrices. -/
def dnBuild (choi_1 choi_2 : Mat) : DNProblem :=
  let dim_squared := choi_1.rows
  let dim := Nat.sqrt dim_squared
  { rhoDim := dim
    wDim := dim_squared
    kronId := dim
    objParam := Mat.hermitize (choi_1.sub choi_2) }

/-- `diamond_norm(choi_1, choi_2)` (lines 51-86 of `diamond_norm.py`).  The
external `cvxpy` solve step is abstracted as the function argument `solve`
returning the solver's optimal value for the constructed program; the Python
function returns `problem.value * 2`. -/
def diamond_norm (choi_1 choi_2 : Mat) (solve : DNProblem → ℚ) : Except DNErr ℚ :=
  if (choi_1.rows, choi_1.cols) ≠ (choi_2.rows, choi_2.cols) then
    .error .dimensionMismatch
  else if choi_1.rows ≠ choi_1.cols then
    .error .notSquare
  else
    .ok (solve (dnBuild choi_1 choi_2) * 2)

/-- The Watrous semidefinite program exactly as the spec states it (section 4.2,
steps 1-5), for Choi matrices of side `d * d`: a `d × d` Hermitian PSD
trace-one variable, a `d² × d²` Hermitian PSD variable `W` constrained by
`W ⪯ I_d ⊗ rho`, and the objective `maximise Re Tr(Δᴴ W)` with
`Δ = (Δ + Δᴴ)/2` the Hermitized difference `J1 - J2`. -/
def watrousProblem (d : ℕ) (choi_1 choi_2 : Mat) : DNProblem :=
  { rhoDim := d
    wDim := d * d
    kronId := d
    objParam := Mat.smul (1 / 2) ((choi_1.sub choi_2).add (choi_1.sub choi_2).cT) }

/-! ## State exclusion engine (`state_exclusion.py`) -/

/-- The failure modes of `state_exclusion`: the explicit `ValueError` of
line 104, and the `IndexError` that `vectors[0]` on line 107 raises when the
ensemble is empty. -/
inductive SEErr where
  | dimensionMismatch
  | indexError
deriving DecidableEq

/-- The shape check of line 103:
`all(vector.shape == vectors[0].shape for vector in vectors)`. -/
def seShapeOK (vectors : List Mat) : Prop :=
  ∀ v ∈ vectors,
    v.rows = (vectors.headD Mat.empty).rows ∧ v.cols = (vectors.headD Mat.empty).cols

instance (vectors : List Mat) : Decidable (seShapeOK vectors) :=
  List.decidableBAll _ vectors

/-- The default probability list of lines 107-108:
`n = vectors[0].shape[0]; probs = [1 / n] * n`.  Note `n` is the ROW DIMENSION
of the first vector, not the number of vectors. -/
def seDefaultProbs (v0 : Mat) : List ℚ :=
  List.replicate v0.rows (1 / (v0.rows : ℚ))

/-- First-order description of the primal picos problem built by
`_min_error_primal` (lines 121-137).  Fixed parts carried by the field
meanings: the variables are `n` Hermitian `dim × dim` matrices `M i`, each
constrained PSD, summing to the identity, and the objective is to minimise
`∑ i, ⟨objCoeffs[i], M i⟩`, where `objCoeffs[i] = probs[i] * v_i v_iᴴ`. -/
structure SEPrimalProb where
  n : ℕ
  dim : ℕ
  objCoeffs : List Mat

/-- First-order description of the dual picos problem built by
`_min_error_dual` (lines 148-161).  Fixed parts carried by the field meanings:
the single variable is a Hermitian `dim × dim` matrix `Y`, constraint `i`
(for `i = 0, …, bounds.length - 1`, in list order) is `Y ⪯ bounds[i]` in the
Löwner order, and the objective is to maximise `Tr Y`. -/
structure SEDualProb where
  dim : ℕ
  bounds : List Mat

/-- A solver's answer for the primal problem: the optimal value together with
the assigned values of the `n` measurement variables. -/
structure SEPrimalSolution where
  value : ℚ
  mValues : List Mat

/-- A solver's answer for the dual problem: the optimal value, the assigned
value of the variable `Y`, and the dual value attached to each constraint
(`problem.get_constraint(k).dual`, indexed by constraint position). -/
structure SEDualSolution where
  value : ℚ
  yValue : Mat
  constraintDual : ℕ → Mat

/-- What `state_exclusion` returns: `(solution.value, measurements)`. -/
structure SEReturn where
  value : ℚ
  operators : List Mat

/-- The primal problem data built by `_min_error_primal` from the ensemble and
the probability list (lines 121-137): `n = len(vectors)`,
`dim = vectors[0].shape[0]`, objective coefficient `i` equal to
`probs[i] * vectors[i] @ vectors[i].conj().T`. -/
def sePrimalProblem (vectors : List Mat) (probs : List ℚ) : SEPrimalProb :=
  { n := vectors.length
    dim := (vectors.headD Mat.empty).rows
    objCoeffs := (List.range vectors.length).map fun i =>
      Mat.smul (probs.getD i 0) (Mat.outer (vectors.getD i Mat.empty)) }

/-- The dual problem data built by `_min_error_dual` (lines 148-158): the
constraint list `[Y ⪯ probs[i] * v_i v_iᴴ for i, v_i in enumerate(vectors)]`
in ensemble order. -/
def seDualProblem (vectors : List Mat) (probs : List ℚ) : SEDualProb :=
  { dim := (vectors.headD Mat.empty).rows
    bounds := (List.range vectors.length).map fun i =>
      Mat.smul (probs.getD i 0) (Mat.outer (vectors.getD i Mat.empty)) }

/-- `_min_error_primal` (lines 115-139): build the primal problem, solve it,
and return `(solution.value, measurements)`. -/
def min_error_primal (vectors : List Mat) (probs : List ℚ) (solver : String)
    (solveP : String → SEPrimalProb → SEPrimalSolution) : SEReturn :=
  let sol := solveP solver (sePrimalProblem vectors probs)
  { value := sol.value, operators := sol.mValues }

/-- `_min_error_dual` (lines 142-166): build the dual problem, solve it, and
return the optimal value together with
`[problem.get_constraint(k).dual for k in range(n)]` where `n = len(vectors)`
— the dual values of the `n` per-vector inequality constraints, not the
variable `Y`. -/
def min_error_dual (vectors : List Mat) (probs : List ℚ) (solver : String)
    (solveD : String → SEDualProb → SEDualSolution) : SEReturn :=
  let sol := solveD solver (seDualProblem vectors probs)
  { value := sol.value, operators := (List.range vectors.length).map sol.constraintDual }

/-- Default of the `solver` keyword argument of `state_exclusion`. -/
def seSolverDefault : String := "cvxopt"

/-- Default of the `primal_dual` keyword argument of `state_exclusion`. -/
def sePrimalDualDefault : String := "dual"

/-- `state_exclusion(vectors, probs, solver, primal_dual)`
(lines 103-112 of `state_exclusion.py`).  The two picos solve steps are
abstracted as the function arguments `solveP` / `solveD`, which receive the
solver name string and the constructed problem data.  Control flow follows the
source: shape validation first, then the default-probability computation from
`vectors[0].shape[0]`, then dispatch on `primal_dual == "primal"`, every other
string falling through to the dual path. -/
def state_exclusion (vectors : List Mat) (probs : Option (List ℚ))
    (solver : String) (primal_dual : String)
    (solveP : String → SEPrimalProb → SEPrimalSolution)
    (solveD : String → SEDualProb → SEDualSolution) : Except SEErr SEReturn :=
  if ¬ seShapeOK vectors then
    .error .dimensionMismatch
  else
    match vectors with
    | [] => .error .indexError
    | v0 :: rest =>
      let probsV := probs.getD (seDefaultProbs v0)
      if primal_dual = "primal" then
        .ok (min_error_primal (v0 :: rest) probsV solver solveP)
      else
        .ok (min_error_dual (v0 :: rest) probsV solver solveD)

/-! ## Realignment (`realignment.py`) -/

/-- The `dim` argument of `realignment`: a Python `int`, or a list/array of
dimension data (floats idealised as rationals). -/
inductive RDim where
  | rint (d : ℕ)
  | rmat (m : List (List ℚ))

/-- Nearest-integer rounding of the square root of a natural number; the exact
idealisation of `np.round(np.sqrt(n))` for the matrix sizes at hand. -/
def roundSqrt (n : ℕ) : ℕ :=
  let s := Nat.sqrt n
  if n - s * s ≤ (s + 1) * (s + 1) - n then s else s + 1

/-- The data with which `realignment` invokes the external reshaping pipeline
(lines 77-82 of `realignment.py`): the input matrix, the normalised dimension
partition `dim`, and the derived partitions `dim_x` and `dim_y`.  The pipeline
itself — `swap(input, [1,2], dim, True)`, then `partial_transpose(·, 1, dim_x)`,
then `swap(·, [1,2], dim_y, True)` — lives outside this repository's core (spec
sections 1 and 6 treat it as an external pure function), so the embedding stops
at the fully determined call data. -/
structure RealignCall where
  input : Mat
  dim : List (List ℚ)
  dim_x : List (List ℚ)
  dim_y : List (List ℚ)

/-- `realignment(input_mat, dim)` (lines 56-82 of `realignment.py`) up to the
external reshaping pipeline.

* `dim = None`: the partition is the rounded square root of each side
  (lines 58-60).
* `dim` a list/array: used as given (lines 61-62).
* `dim` an `int`: the code forms `[[dim], [rows / dim]]`, raises
  `ValueError("InvalidDim:")` when `rows / dim` is farther from an integer
  than the floating-point tolerance `2 * rows * eps` — in exact arithmetic,
  when `dim` does not divide `rows` — and then unconditionally overwrites the
  partition with the constant `[[1], [4]]` (lines 64-69).

A one-column (or one-row) partition is then flattened and duplicated into a
two-row partition (lines 71-74), and `dim_x`, `dim_y` are the rearrangements
of lines 77-78. -/
def realignment (input : Mat) (dim : Option RDim) : Except String RealignCall :=
  let dim0 : Except String (List (List ℚ)) :=
    match dim with
    | none => .ok [[(roundSqrt input.rows : ℚ)], [(roundSqrt input.cols : ℚ)]]
    | some (.rmat m) => .ok m
    | some (.rint d) =>
      if input.rows % d ≠ 0 then .error "InvalidDim:"
      else .ok [[1], [4]]
  match dim0 with
  | .error e => .error e
  | .ok dm =>
    let dm2 := if dm.length = 1 ∨ (dm.headD []).length = 1 then
        let flat := dm.flatten
        [flat, flat]
      else dm
    let g : ℕ → ℕ → ℚ := fun i j => (dm2.getD i []).getD j 0
    .ok { input := input
          dim := dm2
          dim_x := [[g 0 1, g 0 0], [g 1 0, g 1 1]]
          dim_y := [[g 1 0, g 0 0], [g 0 1, g 1 1]] }

/-! ## Concrete inputs and trivial solvers used by the witness theorems -/

/-- The `k`-th standard basis column vector in dimension `d`. -/
def basisVec (d k : ℕ) : Mat := ⟨d, 1, fun i j => if i = k ∧ j = 0 then 1 else 0⟩

/-- A trivial stand-in solver for the diamond-norm program. -/
def dnSolve0 : DNProblem → ℚ := fun _ => 0

/-- A trivial stand-in solver for the primal exclusion program. -/
def seSolveP0 : String → SEPrimalProb → SEPrimalSolution := fun _ _ => ⟨0, []⟩

/-- A trivial stand-in solver for the dual exclusion program. -/
def seSolveD0 : String → SEDualProb → SEDualSolution :=
  fun _ _ => ⟨0, Mat.empty, fun _ => Mat.empty⟩

/-- A solver for the dual exclusion program that reports, as its optimal value,
the real part of the top-left entry of the first constraint's bound matrix
`probs[0] * v_0 v_0ᴴ`; it makes the probability weight the code put into the
constructed program observable in the returned value. -/
def seEchoD : String → SEDualProb → SEDualSolution :=
  fun _ P => ⟨((P.bounds.headD Mat.empty).entry 0 0).re, Mat.empty, fun _ => Mat.empty⟩

/-! ## Helper lemmas -/

@[simp] theorem Cq.star_zero : star (0 : Cq) = 0 := by apply Cq.ext <;> simp

@[simp] theorem Cq.star_one : star (1 : Cq) = 1 := by apply Cq.ext <;> simp

@[simp] theorem Cq.zero_mul (z : Cq) : 0 * z = 0 := by apply Cq.ext <;> simp

@[simp] theorem Cq.mul_zero (z : Cq) : z * 0 = 0 := by apply Cq.ext <;> simp

@[simp] theorem Cq.mul_one (z : Cq) : z * 1 = z := by apply Cq.ext <;> simp

@[simp] theorem Cq.one_mul (z : Cq) : 1 * z = z := by apply Cq.ext <;> simp

@[simp] theorem Cq.sub_zero (z : Cq) : z - 0 = z := by apply Cq.ext <;> simp

@[simp] theorem Cq.add_zero' (z : Cq) : z + 0 = z := by apply Cq.ext <;> simp

@[simp] theorem Cq.zero_add' (z : Cq) : (0 : Cq) + z = z := by apply Cq.ext <;> simp

theorem Mat.extEq {A B : Mat} (hr : A.rows = B.rows) (hc : A.cols = B.cols)
    (he : ∀ i j, A.entry i j = B.entry i j) : A = B := by
  cases A; cases B
  dsimp at hr hc he
  subst hr; subst hc
  congr 1
  funext i j
  exact he i j

/-- When both Choi matrices are the same `J`, the Hermitized difference
parameter of the constructed program vanishes entrywise. -/
theorem dn_self_objParam_zero (J : Mat) (i j : ℕ) :
    ((dnBuild J J).objParam).entry i j = 0 := by
  apply Cq.ext <;>
    simp [dnBuild, Mat.hermitize, Mat.smul, Mat.add, Mat.cT, Mat.sub]

/-- With identical Choi matrices the objective `Re Tr(Δᴴ W)` is identically
zero, for every matrix `W` whatsoever. -/
theorem dn_self_obj_zero (J W : Mat) : (dnBuild J J).objective W = 0 := by
  unfold DNProblem.objective Mat.trace Mat.mul Mat.cT
  rw [Cq.re_sum]
  apply Finset.sum_eq_zero
  intro i _
  rw [Cq.re_sum]
  apply Finset.sum_eq_zero
  intro k _
  simp [dn_self_objParam_zero]


/-- The all-zeros matrix is positive semidefinite. -/
theorem psd_zeros (r c : ℕ) : (Mat.zeros r c).PSD := by
  intro x
  have h : (Mat.zeros r c).qform x = 0 := by
    unfold Mat.qform
    apply Finset.sum_eq_zero
    intro i _
    apply Finset.sum_eq_zero
    intro j _
    simp [Mat.zeros]
  rw [h]
  exact ⟨le_refl 0, rfl⟩

/-- A square matrix whose quadratic form is `star (x 0) * x 0` is positive
semidefinite. -/
theorem psd_of_qform_eq_normSq (A : Mat) (h : ∀ x, A.qform x = star (x 0) * x 0) :
    A.PSD := by
  intro x
  rw [h x]
  constructor
  · simp only [Cq.mul_re, Cq.star_re, Cq.star_im]
    nlinarith [mul_self_nonneg (x 0).re, mul_self_nonneg (x 0).im]
  · simp only [Cq.mul_im, Cq.star_re, Cq.star_im]
    ring

/-- Feasible point for the diamond-norm program built from two copies of the
one-dimensional identity: `rho = I₁`, `W = 0`. -/
theorem dn_feasible_example :
    (dnBuild (Mat.idMat 1) (Mat.idMat 1)).Feasible (Mat.idMat 1) (Mat.zeros 1 1) := by
  have hsq1 : Nat.sqrt 1 = 1 := Nat.sqrt_one
  have hrho : (dnBuild (Mat.idMat 1) (Mat.idMat 1)).rhoDim = 1 := by
    simp [dnBuild, Mat.idMat]
  have hw : (dnBuild (Mat.idMat 1) (Mat.idMat 1)).wDim = 1 := rfl
  have hk : (dnBuild (Mat.idMat 1) (Mat.idMat 1)).kronId = 1 := by
    simp [dnBuild, Mat.idMat]
  have hid : (Mat.idMat 1).PSD := by
    apply psd_of_qform_eq_normSq
    intro x
    unfold Mat.qform
    simp [Mat.idMat, Finset.sum_range_one]
  refine ⟨by rw [hrho]; rfl, by rw [hrho]; rfl, ⟨rfl, ?_⟩, hid, ?_,
      by rw [hw]; rfl, by rw [hw]; rfl, ⟨rfl, ?_⟩, psd_zeros 1 1, ?_⟩
  · intro i j
    by_cases h : i = j
    · subst h; simp [Mat.idMat]
    · simp [Mat.idMat, h, Ne.symm h]
  · unfold Mat.trace
    simp [Mat.idMat, Finset.sum_range_one]
  · intro i j
    simp [Mat.zeros]
  · rw [hk]
    unfold Mat.loewnerLE
    apply psd_of_qform_eq_normSq
    intro x
    unfold Mat.qform
    simp [Mat.kron, Mat.sub, Mat.zeros, Mat.idMat, Finset.sum_range_one]

/-! ## Semantic interpretation of the exclusion programs over the complex field

Claim-level statements about optimal values need real semantics: the two picos
programs built by `state_exclusion` are interpreted as optimization problems
over complex matrices, their optimal values as `sInf` / `sSup` of the sets of
feasible objective values. -/

open ComplexOrder

/-- The complex partial order, spelled out on components. -/
theorem complex_zero_le_iff (z : ℂ) : 0 ≤ z ↔ 0 ≤ z.re ∧ z.im = 0 := by
  rw [Complex.le_def]
  simp [eq_comm]

/-- Cast of a `Cq` scalar into the complex numbers. -/
noncomputable def Cq.toComplex (z : Cq) : ℂ := ⟨(z.re : ℝ), (z.im : ℝ)⟩

/-- Interpretation of an untyped matrix as a complex matrix of a given typed
shape (reading the in-range entries). -/
noncomputable def Mat.toC (dr dc : ℕ) (M : Mat) : Matrix (Fin dr) (Fin dc) ℂ :=
  Matrix.of fun i j => (M.entry i j).toComplex

/-- The set of objective values of feasible points of the primal exclusion
program with coefficient matrices `A`: values `∑ i, Re Tr(A i * M i)` over
POVMs `M` (each `M i` Hermitian PSD, summing to the identity).  This is the
program `_min_error_primal` declares, read over `ℂ`. -/
def sdpPrimalSet (d n : ℕ) (A : Fin n → Matrix (Fin d) (Fin d) ℂ) : Set ℝ :=
  {r | ∃ M : Fin n → Matrix (Fin d) (Fin d) ℂ,
    (∀ i, (M i).PosSemidef) ∧ ∑ i, M i = 1 ∧
    r = ∑ i, ((A i * M i).trace).re}

/-- The set of objective values of feasible points of the dual exclusion
program with bound matrices `A`: values `Re Tr Y` over Hermitian `Y` with
`Y ⪯ A i` for every `i`.  This is the program `_min_error_dual` declares,
read over `ℂ`. -/
def sdpDualSet (d n : ℕ) (A : Fin n → Matrix (Fin d) (Fin d) ℂ) : Set ℝ :=
  {r | ∃ Y : Matrix (Fin d) (Fin d) ℂ, Y.IsHermitian ∧
    (∀ i, (A i - Y).PosSemidef) ∧ r = (Y.trace).re}

/-- The coefficient matrices of a built primal exclusion program, over `ℂ`. -/
noncomputable def SEPrimalProb.coeffC (P : SEPrimalProb) :
    Fin P.n → Matrix (Fin P.dim) (Fin P.dim) ℂ :=
  fun i => (P.objCoeffs.getD i Mat.empty).toC P.dim P.dim

/-- The constraint bound matrices of a built dual exclusion program, over `ℂ`
(indexed by an externally supplied count, the ensemble size). -/
noncomputable def SEDualProb.boundC (P : SEDualProb) (n : ℕ) :
    Fin n → Matrix (Fin P.dim) (Fin P.dim) ℂ :=
  fun i => (P.bounds.getD i Mat.empty).toC P.dim P.dim

/-! ## Strong duality for the exclusion SDP pair -/

section Duality

open Matrix

variable {d n : ℕ}

theorem complex_zero_le_iff' (z : ℂ) : 0 ≤ z ↔ 0 ≤ z.re ∧ z.im = 0 := by
  rw [Complex.le_def]
  simp [eq_comm]


/-- Diagonal entries of a complex PSD matrix are nonnegative. -/
theorem psdC_diag_nonneg {M : Matrix (Fin d) (Fin d) ℂ} (hM : M.PosSemidef) (i : Fin d) :
    0 ≤ M i i := by
  have h := hM.2 (Pi.single i (1 : ℂ))
  have hx : star (Pi.single i (1 : ℂ)) = (Pi.single i (1 : ℂ) : Fin d → ℂ) := by
    funext t
    simp [Pi.single_apply, apply_ite (star : ℂ → ℂ)]
  rw [hx, Matrix.single_dotProduct] at h
  simpa [Matrix.mulVec_single] using h

/-- The trace of a complex PSD matrix is nonnegative (complex order). -/
theorem psdC_trace_nonneg {M : Matrix (Fin d) (Fin d) ℂ} (hM : M.PosSemidef) :
    0 ≤ M.trace := by
  unfold Matrix.trace
  exact Finset.sum_nonneg fun i _ => psdC_diag_nonneg hM i

/-- `Tr (P * Q) ≥ 0` for complex PSD matrices `P`, `Q`: the key inequality
behind weak duality. -/
theorem psdC_trace_mul_nonneg {P Q : Matrix (Fin d) (Fin d) ℂ}
    (hP : P.PosSemidef) (hQ : Q.PosSemidef) : 0 ≤ (P * Q).trace := by
  classical
  obtain ⟨S, hSherm, hSpsd, hSS⟩ : ∃ S : Matrix (Fin d) (Fin d) ℂ,
      S.conjTranspose = S ∧ S.PosSemidef ∧ S * S = Q :=
    ⟨hQ.sqrt, hQ.posSemidef_sqrt.1, hQ.posSemidef_sqrt, hQ.sqrt_mul_self⟩
  subst hSS
  have hcycle : (P * (S * S)).trace = (S * P * S).trace := by
    rw [← Matrix.mul_assoc, Matrix.trace_mul_cycle]
  have hpsd : (S * P * S).PosSemidef := by
    have h2 := hP.conjTranspose_mul_mul_same (B := S)
    rwa [hSherm] at h2
  rw [hcycle]
  exact psdC_trace_nonneg hpsd

/-- The rank-one matrix `x xᴴ` (as `vecMulVec x (star x)`) is PSD. -/
theorem psd_vecMulVec_star (x : Fin d → ℂ) : (Matrix.vecMulVec x (star x)).PosSemidef := by
  constructor
  · ext a b
    simp [Matrix.conjTranspose_apply, Matrix.vecMulVec_apply, mul_comm]
  · intro y
    have hmv : Matrix.vecMulVec x (star x) *ᵥ y = fun a => x a * (star x ⬝ᵥ y) := by
      funext a
      simp [Matrix.mulVec, Matrix.vecMulVec_apply, dotProduct, Finset.mul_sum, mul_assoc]
    rw [hmv]
    have hdot : star y ⬝ᵥ (fun a => x a * (star x ⬝ᵥ y))
        = (star y ⬝ᵥ x) * (star x ⬝ᵥ y) := by
      simp [dotProduct, Finset.sum_mul, mul_assoc]
    rw [hdot, Matrix.star_dotProduct x y]
    simpa using mul_star_self_nonneg (star y ⬝ᵥ x)

/-- The quadratic form of `B` at `x` is the trace of `B` against `x xᴴ`. -/
theorem quadform_eq_trace_vecMulVec (B : Matrix (Fin d) (Fin d) ℂ) (x : Fin d → ℂ) :
    star x ⬝ᵥ (B *ᵥ x) = (B * Matrix.vecMulVec x (star x)).trace := by
  simp only [Matrix.trace, Matrix.diag_apply, Matrix.mul_apply, Matrix.vecMulVec_apply,
    dotProduct, Matrix.mulVec, Finset.mul_sum]
  apply Finset.sum_congr rfl
  intro a _
  apply Finset.sum_congr rfl
  intro b _
  ring

/-- The quadratic form of a Hermitian matrix is real. -/
theorem herm_quadform_im_zero {B : Matrix (Fin d) (Fin d) ℂ} (hB : B.IsHermitian)
    (x : Fin d → ℂ) : (star x ⬝ᵥ (B *ᵥ x)).im = 0 := by
  have hst : star (star x ⬝ᵥ (B *ᵥ x)) = star x ⬝ᵥ (B *ᵥ x) := by
    conv_lhs => rw [Matrix.star_dotProduct, star_star]
    rw [Matrix.star_mulVec, ← Matrix.dotProduct_mulVec, hB.eq]
  have h2 := congrArg Complex.im hst
  simp only [Complex.star_def, Complex.conj_im] at h2
  linarith

/-- A Hermitian matrix whose trace pairing with every PSD matrix is
nonnegative is itself PSD (easy direction of self-duality of the PSD cone). -/
theorem psdC_of_trace_pairing_nonneg {B : Matrix (Fin d) (Fin d) ℂ} (hB : B.IsHermitian)
    (h : ∀ P : Matrix (Fin d) (Fin d) ℂ, P.PosSemidef → 0 ≤ ((B * P).trace).re) :
    B.PosSemidef := by
  refine ⟨hB, fun x => ?_⟩
  have h1 := h _ (psd_vecMulVec_star x)
  rw [← quadform_eq_trace_vecMulVec] at h1
  rw [complex_zero_le_iff']
  exact ⟨h1, herm_quadform_im_zero hB x⟩

/-- PSD is stable under nonnegative real scaling. -/
theorem psdC_smul {M : Matrix (Fin d) (Fin d) ℂ} (hM : M.PosSemidef) {c : ℝ} (hc : 0 ≤ c) :
    (c • M).PosSemidef := by
  constructor
  · ext a b
    simp only [Matrix.conjTranspose_apply, Matrix.smul_apply, star_smul, star_trivial]
    rw [← Matrix.conjTranspose_apply, hM.1.eq]
  · intro x
    rw [Matrix.smul_mulVec_assoc, Matrix.dotProduct_smul]
    have h := hM.2 x
    rw [complex_zero_le_iff'] at h ⊢
    constructor
    · rw [Complex.smul_re]
      exact mul_nonneg hc h.1
    · rw [Complex.smul_im, h.2, smul_zero]

/-- Weak duality for the exclusion SDP pair: every dual-feasible value is at
most every primal-feasible value. -/
theorem sdp_weak_duality {A : Fin n → Matrix (Fin d) (Fin d) ℂ}
    {r s : ℝ} (hr : r ∈ sdpDualSet d n A) (hs : s ∈ sdpPrimalSet d n A) : r ≤ s := by
  obtain ⟨Y, hY, hYle, rfl⟩ := hr
  obtain ⟨M, hMpsd, hMsum, rfl⟩ := hs
  have key : ∀ i, ((Y * M i).trace).re ≤ ((A i * M i).trace).re := by
    intro i
    have h0 : 0 ≤ (((A i - Y) * M i).trace) := psdC_trace_mul_nonneg (hYle i) (hMpsd i)
    have h1 := ((complex_zero_le_iff' _).1 h0).1
    rw [Matrix.sub_mul, Matrix.trace_sub, Complex.sub_re] at h1
    linarith
  have htr : (Y.trace).re = ∑ i, ((Y * M i).trace).re := by
    have h2 : Y = Y * ∑ i, M i := by rw [hMsum, mul_one]
    calc (Y.trace).re = ((Y * ∑ i, M i).trace).re := by rw [← h2]
      _ = ((∑ i, Y * M i).trace).re := by rw [Finset.mul_sum]
      _ = ∑ i, ((Y * M i).trace).re := by rw [Matrix.trace_sum, Complex.re_sum]
  rw [htr]
  exact Finset.sum_le_sum fun i _ => key i

/-- The uniform POVM `M i = (1/n) • I` is primal-feasible: the primal value
set is nonempty. -/
theorem sdp_primal_nonempty (hn : 0 < n) (A : Fin n → Matrix (Fin d) (Fin d) ℂ) :
    (sdpPrimalSet d n A).Nonempty := by
  classical
  refine ⟨∑ i, ((A i * (((n : ℝ)⁻¹) • 1)).trace).re,
    fun _ => ((n : ℝ)⁻¹) • 1, fun i => ?_, ?_, rfl⟩
  · exact psdC_smul Matrix.PosSemidef.one (by positivity)
  · rw [Finset.sum_const, Finset.card_univ, Fintype.card_fin]
    rw [← Nat.cast_smul_eq_nsmul ℝ, smul_smul,
      mul_inv_cancel₀ (by exact_mod_cast hn.ne' : (n : ℝ) ≠ 0), one_smul]

/-- `Y = 0` is dual-feasible when every `A i` is PSD: the dual value set is
nonempty, with value `0`. -/
theorem sdp_dual_zero_mem (A : Fin n → Matrix (Fin d) (Fin d) ℂ)
    (hA : ∀ i, (A i).PosSemidef) : (0 : ℝ) ∈ sdpDualSet d n A :=
  ⟨0, Matrix.isHermitian_zero, fun i => by simpa using hA i, by simp⟩

/-- Every real-linear functional on complex `d × d` matrices is the real part
of the trace pairing against a fixed matrix `G`. -/
theorem linfunc_representer (g : Matrix (Fin d) (Fin d) ℂ →ₗ[ℝ] ℝ) :
    ∃ G : Matrix (Fin d) (Fin d) ℂ, ∀ v, ((G * v).trace).re = g v := by
  classical
  refine ⟨Matrix.of fun a b =>
    ⟨g (Matrix.stdBasisMatrix b a 1), -(g (Matrix.stdBasisMatrix b a Complex.I))⟩, fun v => ?_⟩
  have hsplit : ∀ (a b : Fin d) (z : ℂ),
      Matrix.stdBasisMatrix a b z
        = z.re • Matrix.stdBasisMatrix a b (1 : ℂ) + z.im • Matrix.stdBasisMatrix a b Complex.I := by
    intro a b z
    ext i j
    by_cases h : a = i ∧ b = j
    · simp [Matrix.stdBasisMatrix, h, Complex.real_smul, Complex.re_add_im]
    · simp [Matrix.stdBasisMatrix, h]
  have htr : ((Matrix.of fun a b =>
      (⟨g (Matrix.stdBasisMatrix b a 1), -(g (Matrix.stdBasisMatrix b a Complex.I))⟩ : ℂ)) * v).trace
      = ∑ a, ∑ b, (⟨g (Matrix.stdBasisMatrix b a 1),
          -(g (Matrix.stdBasisMatrix b a Complex.I))⟩ : ℂ) * v b a := by
    simp [Matrix.trace, Matrix.diag_apply, Matrix.mul_apply]
  calc ((Matrix.of fun a b =>
      (⟨g (Matrix.stdBasisMatrix b a 1), -(g (Matrix.stdBasisMatrix b a Complex.I))⟩ : ℂ)) * v).trace.re
      = ∑ a, ∑ b, ((⟨g (Matrix.stdBasisMatrix b a 1),
          -(g (Matrix.stdBasisMatrix b a Complex.I))⟩ : ℂ) * v b a).re := by
        rw [htr, Complex.re_sum]
        exact Finset.sum_congr rfl fun a _ => by rw [Complex.re_sum]
    _ = ∑ a, ∑ b, (g (Matrix.stdBasisMatrix b a 1) * (v b a).re
          + g (Matrix.stdBasisMatrix b a Complex.I) * (v b a).im) := by
        apply Finset.sum_congr rfl
        intro a _
        apply Finset.sum_congr rfl
        intro b _
        rw [Complex.mul_re]
        ring
    _ = ∑ b, ∑ a, (g (Matrix.stdBasisMatrix b a 1) * (v b a).re
          + g (Matrix.stdBasisMatrix b a Complex.I) * (v b a).im) := Finset.sum_comm
    _ = g v := by
        conv_rhs => rw [Matrix.matrix_eq_sum_stdBasisMatrix v]
        rw [map_sum]
        apply Finset.sum_congr rfl
        intro i _
        rw [map_sum]
        apply Finset.sum_congr rfl
        intro j _
        rw [hsplit i j (v i j), map_add, g.map_smul, g.map_smul, smul_eq_mul, smul_eq_mul]
        ring

/-- Real scalar multiples of Hermitian matrices are Hermitian. -/
theorem hermC_smul {M : Matrix (Fin d) (Fin d) ℂ} (hM : M.IsHermitian) (c : ℝ) :
    (c • M).IsHermitian := by
  ext a b
  simp only [Matrix.conjTranspose_apply, Matrix.smul_apply, star_smul, star_trivial]
  rw [← Matrix.conjTranspose_apply, hM.eq]

/-- Hermitian representer of a real-linear functional: agrees with the trace
pairing on every Hermitian argument. -/
theorem herm_representer (g : Matrix (Fin d) (Fin d) ℂ →ₗ[ℝ] ℝ) :
    ∃ G : Matrix (Fin d) (Fin d) ℂ, G.IsHermitian ∧
      ∀ v, v.IsHermitian → ((G * v).trace).re = g v := by
  obtain ⟨G0, hG0⟩ := linfunc_representer g
  have hadd : (G0 + G0ᴴ).IsHermitian := by
    show (G0 + G0ᴴ)ᴴ = G0 + G0ᴴ
    rw [Matrix.conjTranspose_add, Matrix.conjTranspose_conjTranspose, add_comm]
  refine ⟨((2 : ℝ)⁻¹) • (G0 + G0ᴴ), hermC_smul hadd _, fun v hv => ?_⟩
  have key : ((G0ᴴ * v).trace).re = ((G0 * v).trace).re := by
    have h2 : (G0ᴴ * v).trace = star ((G0 * v).trace) := by
      calc (G0ᴴ * v).trace = (G0ᴴ * vᴴ).trace := by rw [hv.eq]
        _ = ((v * G0)ᴴ).trace := by rw [Matrix.conjTranspose_mul]
        _ = star ((v * G0).trace) := Matrix.trace_conjTranspose _
        _ = star ((G0 * v).trace) := by rw [Matrix.trace_mul_comm]
    rw [h2, Complex.star_def, Complex.conj_re]
  rw [Matrix.smul_mul, Matrix.trace_smul, Complex.smul_re, Matrix.add_mul, Matrix.trace_add,
    Complex.add_re, key, hG0 v, smul_eq_mul]
  ring

/-- A real linear bound `b < s * a + k` for all `s ≥ 0` forces `0 ≤ a`. -/
theorem nonneg_coeff_of_forall_lt {a b k : ℝ} (h : ∀ s : ℝ, 0 ≤ s → b < s * a + k) : 0 ≤ a := by
  by_contra hneg
  push_neg at hneg
  have h0 := h 0 le_rfl
  have hnum : b - k - 1 < 0 := by linarith
  have hs : 0 < (b - k - 1) / a := div_pos_of_neg_of_neg hnum hneg
  have h2 := h ((b - k - 1) / a) hs.le
  rw [div_mul_cancel₀ _ (ne_of_lt hneg)] at h2
  linarith

/-- The perturbation set of the primal exclusion program: pairs `(u, t)` such
that some PSD tuple `M` has `∑ M i - 1 = u` and objective value at most `t`. -/
def sdpPerturb (d n : ℕ) (A : Fin n → Matrix (Fin d) (Fin d) ℂ) :
    Set ((Matrix (Fin d) (Fin d) ℂ) × ℝ) :=
  {ut | ∃ M : Fin n → Matrix (Fin d) (Fin d) ℂ, (∀ i, (M i).PosSemidef) ∧
    ut.1 = (∑ i, M i) - 1 ∧ (∑ i, ((A i * M i).trace).re) ≤ ut.2}

theorem sdpPerturb_convex (A : Fin n → Matrix (Fin d) (Fin d) ℂ) :
    Convex ℝ (sdpPerturb d n A) := by
  rintro ⟨u1, t1⟩ ⟨M1, hM1, hu1, ht1⟩ ⟨u2, t2⟩ ⟨M2, hM2, hu2, ht2⟩ θ μ hθ hμ hθμ
  refine ⟨fun i => θ • M1 i + μ • M2 i,
    fun i => (psdC_smul (hM1 i) hθ).add (psdC_smul (hM2 i) hμ), ?_, ?_⟩
  · show θ • u1 + μ • u2 = _
    simp only at hu1 hu2
    rw [hu1, hu2, Finset.sum_add_distrib, ← Finset.smul_sum, ← Finset.smul_sum]
    rw [smul_sub, smul_sub]
    have h1 : θ • (∑ i, M1 i) - θ • (1 : Matrix (Fin d) (Fin d) ℂ)
        + (μ • (∑ i, M2 i) - μ • 1)
        = θ • (∑ i, M1 i) + μ • (∑ i, M2 i) - (θ + μ) • 1 := by
      rw [add_smul]
      abel
    rw [h1, hθμ, one_smul]
  · show ∑ i, ((A i * (θ • M1 i + μ • M2 i)).trace).re ≤ θ • t1 + μ • t2
    have hobj : ∀ i, ((A i * (θ • M1 i + μ • M2 i)).trace).re
        = θ * ((A i * M1 i).trace).re + μ * ((A i * M2 i).trace).re := by
      intro i
      rw [mul_add, mul_smul_comm, mul_smul_comm, Matrix.trace_add, Matrix.trace_smul,
        Matrix.trace_smul, Complex.add_re, Complex.smul_re, Complex.smul_re]
      simp [smul_eq_mul]
    rw [Finset.sum_congr rfl fun i _ => hobj i, Finset.sum_add_distrib,
      ← Finset.mul_sum, ← Finset.mul_sum, smul_eq_mul, smul_eq_mul]
    exact add_le_add (mul_le_mul_of_nonneg_left ht1 hθ) (mul_le_mul_of_nonneg_left ht2 hμ)

/-- Star of a `Pi.single` vector. -/
theorem star_pi_single (i : Fin d) (c : ℂ) :
    star (Pi.single i c) = (Pi.single i (star c) : Fin d → ℂ) := by
  funext t
  simp [Pi.single_apply, apply_ite (star : ℂ → ℂ)]

/-- Quadratic form of `M` at `e_a + c e_b`. -/
theorem quad_pair (M : Matrix (Fin d) (Fin d) ℂ) (a b : Fin d) (c : ℂ) :
    star (Pi.single a 1 + Pi.single b c) ⬝ᵥ (M *ᵥ (Pi.single a 1 + Pi.single b c))
      = M a a + M a b * c + star c * M b a + star c * (M b b * c) := by
  rw [star_add, star_pi_single, star_pi_single, Matrix.mulVec_add,
    Matrix.mulVec_single, Matrix.mulVec_single, Matrix.add_dotProduct,
    Matrix.single_dotProduct, Matrix.single_dotProduct]
  simp only [Pi.add_apply, star_one, one_mul, mul_one]
  ring

/-- The PSD two-point inequality: for all `a`, `b` and every `c : ℂ`,
`0 ≤ M_aa.re + 2 Re(M_ab c) + |c|² M_bb.re`. -/
theorem psd_pair_re {M : Matrix (Fin d) (Fin d) ℂ} (hM : M.PosSemidef) (a b : Fin d) (c : ℂ) :
    0 ≤ (M a a).re + 2 * (M a b * c).re + Complex.normSq c * (M b b).re := by
  have h := hM.2 (Pi.single a 1 + Pi.single b c)
  rw [quad_pair M a b c] at h
  have h1 := ((complex_zero_le_iff' _).1 h).1
  have hba : M b a = star (M a b) := by
    have h4 := congrArg (fun N => N b a) hM.1.eq
    simpa [Matrix.conjTranspose_apply] using h4.symm
  rw [hba] at h1
  have h2 : (star c * star (M a b)).re = (M a b * c).re := by
    rw [← star_mul']
    simp only [Complex.star_def, Complex.conj_re]
    rw [mul_comm]
  have h3 : (star c * (M b b * c)).re = Complex.normSq c * (M b b).re := by
    have e : star c * (M b b * c) = (c * star c) * M b b := by ring
    rw [e, Complex.star_def, Complex.mul_conj]
    simp only [Complex.mul_re, Complex.ofReal_re, Complex.ofReal_im, zero_mul, sub_zero]
  simp only [Complex.add_re] at h1
  rw [h2, h3] at h1
  linarith

/-- Real arithmetic behind the entry bound: a nonnegative quadratic in `s`
forces `t ≤ x * y`. -/
theorem entry_bound_arith {x y t : ℝ} (hy : 0 ≤ y) (_htnn : 0 ≤ t)
    (hkey : ∀ s : ℝ, 0 ≤ x - 2 * s * t + s ^ 2 * t * y) : t ≤ x * y := by
  by_cases hyz : y = 0
  · subst hyz
    rw [mul_zero]
    by_contra hlt
    push_neg at hlt
    have ht0 : 0 < t := hlt
    have h := hkey ((x + 1) / (2 * t))
    have h2 : (2 * t) ≠ 0 := by positivity
    have h3 : (x + 1) / (2 * t) * (2 * t) = x + 1 := div_mul_cancel₀ _ h2
    nlinarith [h, h3]
  · have hypos : 0 < y := lt_of_le_of_ne hy (Ne.symm hyz)
    have h := hkey (1 / y)
    have h2 : (1 / y) ^ 2 * t * y = t / y := by
      field_simp
      ring
    have h3 : 2 * (1 / y) * t = 2 * (t / y) := by ring
    rw [h2, h3] at h
    have h4 : t / y ≤ x := by linarith [div_nonneg _htnn hy]
    calc t = (t / y) * y := by field_simp
      _ ≤ x * y := mul_le_mul_of_nonneg_right h4 hy

/-- Entries of a complex PSD matrix are bounded in norm by the real trace. -/
theorem psdC_entry_norm_le {M : Matrix (Fin d) (Fin d) ℂ} (hM : M.PosSemidef) (a b : Fin d) :
    ‖M a b‖ ≤ (M.trace).re := by
  classical
  have hdiag : ∀ i, 0 ≤ (M i i).re := fun i =>
    ((complex_zero_le_iff' _).1 (psdC_diag_nonneg hM i)).1
  have htrace : (M.trace).re = ∑ i, (M i i).re := by
    unfold Matrix.trace
    rw [Complex.re_sum]
    rfl
  by_cases hab : a = b
  · subst hab
    have him : (M a a).im = 0 := ((complex_zero_le_iff' _).1 (psdC_diag_nonneg hM a)).2
    have hnorm : ‖M a a‖ = (M a a).re := by
      have hre : M a a = ((M a a).re : ℂ) := by
        apply Complex.ext <;> simp [him]
      rw [hre]
      simp [abs_of_nonneg (hdiag a)]
    rw [hnorm, htrace]
    exact Finset.single_le_sum (fun i _ => hdiag i) (Finset.mem_univ a)
  · have hkey : ∀ s : ℝ, 0 ≤ (M a a).re - 2 * s * Complex.normSq (M a b)
        + s ^ 2 * Complex.normSq (M a b) * (M b b).re := by
      intro s
      have h := psd_pair_re hM a b (-(s : ℂ) * star (M a b))
      have e1 : (M a b * (-(s : ℂ) * star (M a b))).re = -(s * Complex.normSq (M a b)) := by
        have e : M a b * (-(s : ℂ) * star (M a b)) = -((s : ℂ) * (M a b * star (M a b))) := by
          ring
        rw [e, Complex.star_def, Complex.mul_conj, ← Complex.ofReal_mul, Complex.neg_re,
          Complex.ofReal_re]
      have e2 : Complex.normSq (-(s : ℂ) * star (M a b)) = s ^ 2 * Complex.normSq (M a b) := by
        rw [Complex.normSq_mul, Complex.normSq_neg, Complex.star_def, Complex.normSq_conj,
          Complex.normSq_ofReal]
        ring
      rw [e1, e2] at h
      linarith
    have htxy : Complex.normSq (M a b) ≤ (M a a).re * (M b b).re :=
      entry_bound_arith (hdiag b) (Complex.normSq_nonneg _) hkey
    have hnorm2 : ‖M a b‖ ^ 2 = Complex.normSq (M a b) := by
      rw [← Complex.sq_abs]
      rfl
    have hxny : (M a a).re + (M b b).re ≤ (M.trace).re := by
      rw [htrace]
      have hsub : ({a, b} : Finset (Fin d)) ⊆ Finset.univ := Finset.subset_univ _
      have h5 := Finset.sum_le_sum_of_subset_of_nonneg hsub (fun i _ _ => hdiag i)
      rwa [Finset.sum_pair hab] at h5
    have hn0 : 0 ≤ ‖M a b‖ := norm_nonneg _
    nlinarith [sq_nonneg ((M a a).re - (M b b).re),
      sq_nonneg ((M a a).re + (M b b).re - 2 * ‖M a b‖), hdiag a, hdiag b]

/-- Bridge instance: a matrix space over `ℂ` is first countable (it is a
finite product of copies of `ℂ`). -/
instance matFirstCountable : FirstCountableTopology (Matrix (Fin d) (Fin d) ℂ) :=
  inferInstanceAs (FirstCountableTopology (Fin d → Fin d → ℂ))

/-- The set of complex numbers that are nonnegative in the complex order is
closed. -/
theorem isClosed_complex_nonneg : IsClosed {z : ℂ | 0 ≤ z} := by
  have he : {z : ℂ | 0 ≤ z}
      = Set.preimage Complex.re (Set.Ici 0) ∩ Set.preimage Complex.im {0} := by
    ext z
    simp [complex_zero_le_iff' z]
  rw [he]
  exact (isClosed_Ici.preimage Complex.continuous_re).inter
    (isClosed_singleton.preimage Complex.continuous_im)

/-- Positive semidefiniteness passes to limits of sequences of matrices. -/
theorem psdC_limit {Mseq : ℕ → Matrix (Fin d) (Fin d) ℂ} {Mlim : Matrix (Fin d) (Fin d) ℂ}
    (hlim : Filter.Tendsto Mseq Filter.atTop (nhds Mlim))
    (hpsd : ∀ k, (Mseq k).PosSemidef) : Mlim.PosSemidef := by
  constructor
  · have hconj : Filter.Tendsto (fun k => (Mseq k)ᴴ) Filter.atTop (nhds Mlimᴴ) :=
      ((continuous_id.matrix_conjTranspose).tendsto Mlim).comp hlim
    have heq : (fun k => (Mseq k)ᴴ) = Mseq := funext fun k => (hpsd k).1.eq
    rw [heq] at hconj
    exact tendsto_nhds_unique hconj hlim
  · intro x
    have hcont : Continuous (fun N : Matrix (Fin d) (Fin d) ℂ => star x ⬝ᵥ (N *ᵥ x)) :=
      continuous_const.matrix_dotProduct (continuous_id.matrix_mulVec continuous_const)
    have htend : Filter.Tendsto (fun k => star x ⬝ᵥ (Mseq k *ᵥ x)) Filter.atTop
        (nhds (star x ⬝ᵥ (Mlim *ᵥ x))) := (hcont.tendsto Mlim).comp hlim
    exact isClosed_complex_nonneg.mem_of_tendsto htend
      (Filter.Eventually.of_forall fun k => (hpsd k).2 x)

/-- The perturbation set of the primal program is closed: PSD tuples realising
convergent perturbations can be taken in a compact entrywise box, and all the
constraints pass to limits. -/
theorem sdpPerturb_isClosed (A : Fin n → Matrix (Fin d) (Fin d) ℂ) :
    IsClosed (sdpPerturb d n A) := by
  classical
  refine IsSeqClosed.isClosed ?_
  intro x p hx hlim
  have hu : Filter.Tendsto (fun k => (x k).1) Filter.atTop (nhds p.1) :=
    (continuous_fst.tendsto p).comp hlim
  have ht : Filter.Tendsto (fun k => (x k).2) Filter.atTop (nhds p.2) :=
    (continuous_snd.tendsto p).comp hlim
  choose M hMpsd hMeq hMle using hx
  -- entrywise uniform bound from the trace constraint
  have htrsum : ∀ k, ∑ i, ((M k i).trace).re = (d : ℝ) + (((x k).1).trace).re := by
    intro k
    have h1 : ∑ i, M k i = (x k).1 + 1 := by
      rw [hMeq k]
      abel
    have h2 : (∑ i, M k i).trace = ((x k).1).trace + (1 : Matrix (Fin d) (Fin d) ℂ).trace := by
      rw [h1, Matrix.trace_add]
    have h3 : ((1 : Matrix (Fin d) (Fin d) ℂ).trace).re = (d : ℝ) := by
      rw [Matrix.trace_one]
      simp
    calc ∑ i, ((M k i).trace).re = ((∑ i, M k i).trace).re := by
          rw [Matrix.trace_sum, Complex.re_sum]
      _ = (d : ℝ) + (((x k).1).trace).re := by
          rw [h2, Complex.add_re, h3]
          ring
  obtain ⟨C, hC⟩ : ∃ C : ℝ, ∀ k, (((x k).1).trace).re ≤ C := by
    have hcont : Continuous (fun N : Matrix (Fin d) (Fin d) ℂ => (N.trace).re) :=
      Complex.continuous_re.comp (continuous_id.matrix_trace)
    have h4 : Filter.Tendsto (fun k => (((x k).1).trace).re) Filter.atTop
        (nhds ((p.1.trace).re)) := ((hcont.tendsto p.1).comp hu)
    obtain ⟨C, hC⟩ := h4.bddAbove_range
    exact ⟨C, fun k => hC (Set.mem_range_self k)⟩
  have hentry : ∀ k (i : Fin n) (a b : Fin d),
      M k i a b ∈ Metric.closedBall (0 : ℂ) ((d : ℝ) + C) := by
    intro k i a b
    rw [Metric.mem_closedBall, dist_zero_right]
    have h5 : ‖M k i a b‖ ≤ ((M k i).trace).re := psdC_entry_norm_le (hMpsd k i) a b
    have h6 : ((M k i).trace).re ≤ ∑ j, ((M k j).trace).re :=
      Finset.single_le_sum
        (fun j _ => ((complex_zero_le_iff' _).1 (psdC_trace_nonneg (hMpsd k j))).1)
        (Finset.mem_univ i)
    have h7 := htrsum k
    have h8 := hC k
    linarith
  set K : Set (Fin n → Matrix (Fin d) (Fin d) ℂ) :=
    Set.univ.pi fun _ =>
      {N : Matrix (Fin d) (Fin d) ℂ | ∀ a b, N a b ∈ Metric.closedBall (0 : ℂ) ((d : ℝ) + C)}
    with hK
  have hinner : IsCompact
      {N : Matrix (Fin d) (Fin d) ℂ | ∀ a b, N a b ∈ Metric.closedBall (0 : ℂ) ((d : ℝ) + C)} := by
    have he : {N : Matrix (Fin d) (Fin d) ℂ | ∀ a b, N a b ∈ Metric.closedBall (0 : ℂ) ((d : ℝ) + C)}
        = Set.univ.pi fun _ : Fin d => Set.univ.pi fun _ : Fin d =>
            Metric.closedBall (0 : ℂ) ((d : ℝ) + C) := by
      ext N
      rw [Set.mem_setOf_eq]
      constructor
      · intro h a _ b _
        exact h a b
      · intro h a b
        exact h a (Set.mem_univ a) b (Set.mem_univ b)
    rw [he]
    exact isCompact_univ_pi fun _ => isCompact_univ_pi fun _ => isCompact_closedBall _ _
  have hKc : IsCompact K := isCompact_univ_pi fun _ => hinner
  have hmem : ∀ k, M k ∈ K := by
    intro k
    rw [hK, Set.mem_univ_pi]
    intro i
    exact fun a b => hentry k i a b
  obtain ⟨L, _hLK, φ, hφ, hMφ⟩ := hKc.tendsto_subseq hmem
  have hφtop : Filter.Tendsto φ Filter.atTop Filter.atTop := hφ.tendsto_atTop
  have hLi : ∀ i, Filter.Tendsto (fun k => M (φ k) i) Filter.atTop (nhds (L i)) := by
    intro i
    exact ((continuous_apply i).tendsto L).comp hMφ
  refine ⟨L, fun i => psdC_limit (hLi i) (fun k => hMpsd (φ k) i), ?_, ?_⟩
  · -- p.1 = ∑ L i - 1
    have hrhs : Filter.Tendsto (fun k => (∑ i, M (φ k) i) - 1) Filter.atTop
        (nhds ((∑ i, L i) - 1)) := by
      have hsum : Continuous (fun T : Fin n → Matrix (Fin d) (Fin d) ℂ => (∑ i, T i) - 1) :=
        (continuous_finset_sum _ fun i _ => continuous_apply i).sub continuous_const
      exact (hsum.tendsto L).comp hMφ
    have hlhs : Filter.Tendsto (fun k => (x (φ k)).1) Filter.atTop (nhds p.1) :=
      hu.comp hφtop
    have heq2 : (fun k => (x (φ k)).1) = fun k => (∑ i, M (φ k) i) - 1 :=
      funext fun k => hMeq (φ k)
    rw [heq2] at hlhs
    exact tendsto_nhds_unique hlhs hrhs
  · -- objective passes to the limit
    have hobj : Filter.Tendsto (fun k => ∑ i, ((A i * M (φ k) i).trace).re) Filter.atTop
        (nhds (∑ i, ((A i * L i).trace).re)) := by
      have hcont : Continuous (fun T : Fin n → Matrix (Fin d) (Fin d) ℂ =>
          ∑ i, ((A i * T i).trace).re) := by
        apply continuous_finset_sum
        intro i _
        exact Complex.continuous_re.comp
          ((continuous_const.matrix_mul (continuous_apply i)).matrix_trace)
      exact (hcont.tendsto L).comp hMφ
    have ht2 : Filter.Tendsto (fun k => (x (φ k)).2) Filter.atTop (nhds p.2) :=
      ht.comp hφtop
    exact le_of_tendsto_of_tendsto' hobj ht2 fun k => hMle (φ k)

/-- Matrices over `ℂ` with the product topology form a locally convex real
topological vector space. -/
instance matLocallyConvex : LocallyConvexSpace ℝ (Matrix (Fin d) (Fin d) ℂ) :=
  inferInstanceAs (LocallyConvexSpace ℝ (Fin d → Fin d → ℂ))

/-- The uniform tuple `(1/n) • I` sums to the identity. -/
theorem sdp_uniform_sum (hn : 0 < n) :
    ∑ _i : Fin n, ((n : ℝ)⁻¹ • (1 : Matrix (Fin d) (Fin d) ℂ)) = 1 := by
  rw [Finset.sum_const, Finset.card_univ, Fintype.card_fin]
  rw [← Nat.cast_smul_eq_nsmul ℝ, smul_smul,
    mul_inv_cancel₀ (by exact_mod_cast hn.ne' : (n : ℝ) ≠ 0), one_smul]

/-- Splitting a continuous linear functional on the product space. -/
theorem clm_split (f : ((Matrix (Fin d) (Fin d) ℂ) × ℝ) →L[ℝ] ℝ)
    (v : Matrix (Fin d) (Fin d) ℂ) (t : ℝ) :
    f (v, t) = f (v, 0) + t * f (0, 1) := by
  have h1 : ((v, t) : (Matrix (Fin d) (Fin d) ℂ) × ℝ)
      = (v, (0 : ℝ)) + t • ((0 : Matrix (Fin d) (Fin d) ℂ), (1 : ℝ)) := by
    rw [Prod.smul_mk, Prod.mk_add_mk]
    simp
  rw [h1, map_add, f.map_smul, smul_eq_mul]

/-- For every `ε > 0` there is a dual-feasible value exceeding
`sInf (primal) - ε`: the separating-hyperplane half of strong duality. -/
theorem sdp_dual_near_optimal (hn : 0 < n) (A : Fin n → Matrix (Fin d) (Fin d) ℂ)
    (hA : ∀ i, (A i).PosSemidef) {ε : ℝ} (hε : 0 < ε) :
    ∃ r ∈ sdpDualSet d n A, sInf (sdpPrimalSet d n A) - ε < r := by
  classical
  have hbdd : BddBelow (sdpPrimalSet d n A) :=
    ⟨0, fun s hs => sdp_weak_duality (sdp_dual_zero_mem A hA) hs⟩
  have hnotin : (((0 : Matrix (Fin d) (Fin d) ℂ),
      sInf (sdpPrimalSet d n A) - ε)) ∉ sdpPerturb d n A := by
    rintro ⟨M, hMpsd, hMeq, hMle⟩
    simp only at hMeq hMle
    have hsum : ∑ i, M i = 1 := by
      have h1 : ∑ i, M i - 1 = 0 := hMeq.symm
      rwa [sub_eq_zero] at h1
    have hmem : (∑ i, ((A i * M i).trace).re) ∈ sdpPrimalSet d n A := ⟨M, hMpsd, hsum, rfl⟩
    have hge := csInf_le hbdd hmem
    linarith
  obtain ⟨f, u, hfx, hfA⟩ := geometric_hahn_banach_point_closed
    (sdpPerturb_convex A) (sdpPerturb_isClosed A) hnotin
  set g : Matrix (Fin d) (Fin d) ℂ →ₗ[ℝ] ℝ :=
    { toFun := fun v => f (v, 0)
      map_add' := fun v w => by
        rw [← map_add, Prod.mk_add_mk, add_zero]
      map_smul' := fun r v => by
        show f (r • v, 0) = r • f (v, 0)
        rw [← f.map_smul]
        rw [Prod.smul_mk, smul_zero] } with hgdef
  have hgf : ∀ v, g v = f (v, 0) := fun v => rfl
  have hsplit : ∀ v t, f (v, t) = g v + t * f (0, 1) := fun v t => clm_split f v t
  have hkey : ∀ (M : Fin n → Matrix (Fin d) (Fin d) ℂ), (∀ i, (M i).PosSemidef) →
      ∀ t, (∑ i, ((A i * M i).trace).re) ≤ t →
      u < g ((∑ i, M i) - 1) + t * f (0, 1) := by
    intro M hM t ht
    have hmem : (((∑ i, M i) - 1, t) : (Matrix (Fin d) (Fin d) ℂ) × ℝ) ∈ sdpPerturb d n A :=
      ⟨M, hM, rfl, ht⟩
    have := hfA _ hmem
    rwa [hsplit] at this
  -- the t-coefficient is nonnegative
  have hc0 : 0 ≤ f (0, 1) := by
    apply nonneg_coeff_of_forall_lt (b := u) (k := g ((∑ i : Fin n, (0 : Matrix (Fin d) (Fin d) ℂ)) - 1))
    intro s hs
    have h := hkey (fun _ => 0) (fun _ => Matrix.PosSemidef.zero) s
      (by simpa using hs)
    rw [add_comm] at h
    exact h
  -- the t-coefficient is nonzero (Slater point: the uniform POVM)
  have hcne : f (0, 1) ≠ 0 := by
    intro hc
    have ht0 := hkey (fun _ => ((n : ℝ)⁻¹ • 1)) (fun _ => psdC_smul Matrix.PosSemidef.one (by positivity))
      (∑ i, ((A i * ((n : ℝ)⁻¹ • 1)).trace).re) le_rfl
    rw [sdp_uniform_sum hn, sub_self, map_zero, hc, mul_zero, add_zero] at ht0
    have hx0 := hfx
    rw [hsplit, map_zero, zero_add, hc, mul_zero] at hx0
    linarith
  have hcpos : 0 < f (0, 1) := lt_of_le_of_ne hc0 (Ne.symm hcne)
  -- directional inequality: the dual feasibility certificate
  have hdir : ∀ (i : Fin n) (P : Matrix (Fin d) (Fin d) ℂ), P.PosSemidef →
      0 ≤ g P + f (0, 1) * ((A i * P).trace).re := by
    intro i P hP
    apply nonneg_coeff_of_forall_lt (b := u) (k := -(g 1))
    intro s hs
    have hMdef : ∀ j, (if j = i then s • P else (0 : Matrix (Fin d) (Fin d) ℂ)).PosSemidef := by
      intro j
      by_cases hj : j = i
      · rw [if_pos hj]
        exact psdC_smul hP hs
      · rw [if_neg hj]
        exact Matrix.PosSemidef.zero
    have hsum : (∑ j, if j = i then s • P else (0 : Matrix (Fin d) (Fin d) ℂ)) = s • P := by
      rw [Finset.sum_ite_eq' Finset.univ i (fun _ => s • P)]
      simp
    have hobj : (∑ j, ((A j * (if j = i then s • P else 0)).trace).re)
        = s * ((A i * P).trace).re := by
      rw [Finset.sum_eq_single i]
      · rw [if_pos rfl, mul_smul_comm, Matrix.trace_smul, Complex.smul_re, smul_eq_mul]
      · intro j _ hj
        rw [if_neg hj, mul_zero, Matrix.trace_zero]
        rfl
      · intro h
        exact absurd (Finset.mem_univ i) h
    have h := hkey _ hMdef _ (le_of_eq hobj)
    rw [hsum, map_sub, g.map_smul, smul_eq_mul] at h
    calc u < s * g P - g 1 + s * ((A i * P).trace).re * f (0, 1) := h
      _ = s * (g P + f (0, 1) * ((A i * P).trace).re) + -(g 1) := by ring
  obtain ⟨G, hGherm, hGrep⟩ := herm_representer g
  set Y : Matrix (Fin d) (Fin d) ℂ := (-(f (0, 1))⁻¹) • G with hY
  have hYherm : Y.IsHermitian := hermC_smul hGherm _
  have hYtr : ∀ P : Matrix (Fin d) (Fin d) ℂ, P.IsHermitian →
      ((Y * P).trace).re = -(f (0, 1))⁻¹ * g P := by
    intro P hPh
    rw [hY, Matrix.smul_mul, Matrix.trace_smul, Complex.smul_re, smul_eq_mul, hGrep P hPh]
  have hfeas : ∀ i, (A i - Y).PosSemidef := by
    intro i
    apply psdC_of_trace_pairing_nonneg ((hA i).1.sub hYherm)
    intro P hP
    rw [Matrix.sub_mul, Matrix.trace_sub, Complex.sub_re, hYtr P hP.1]
    have h := hdir i P hP
    have hinv : 0 ≤ (f (0, 1))⁻¹ := by positivity
    have h2 : 0 ≤ (f (0, 1))⁻¹ * (g P + f (0, 1) * ((A i * P).trace).re) :=
      mul_nonneg hinv h
    have h3 : (f (0, 1))⁻¹ * (g P + f (0, 1) * ((A i * P).trace).re)
        = (f (0, 1))⁻¹ * g P + ((A i * P).trace).re := by
      rw [mul_add, ← mul_assoc, inv_mul_cancel₀ (ne_of_gt hcpos), one_mul]
    rw [h3] at h2
    linarith
  refine ⟨(Y.trace).re, ⟨Y, hYherm, hfeas, rfl⟩, ?_⟩
  -- value bound
  have hg1 : (G.trace).re = g 1 := by
    have := hGrep 1 Matrix.isHermitian_one
    rwa [mul_one] at this
  have hYtrace : (Y.trace).re = -(f (0, 1))⁻¹ * g 1 := by
    rw [hY, Matrix.trace_smul, Complex.smul_re, smul_eq_mul, hg1]
  have hzero : u < -(g 1) := by
    have h := hkey (fun _ => 0) (fun _ => Matrix.PosSemidef.zero) 0 (by simp)
    have hsum0 : (∑ _j : Fin n, (0 : Matrix (Fin d) (Fin d) ℂ)) = 0 := Finset.sum_const_zero
    rw [hsum0, zero_sub, map_neg, zero_mul, add_zero] at h
    exact h
  have hfx2 : (sInf (sdpPrimalSet d n A) - ε) * f (0, 1) < u := by
    have h := hfx
    rw [hsplit, map_zero, zero_add] at h
    exact h
  rw [hYtrace]
  have hlt : (sInf (sdpPrimalSet d n A) - ε) * f (0, 1) < -(g 1) := hfx2.trans hzero
  have h4 : sInf (sdpPrimalSet d n A) - ε < (-(g 1)) / f (0, 1) :=
    (lt_div_iff₀ hcpos).2 hlt
  calc sInf (sdpPrimalSet d n A) - ε < (-(g 1)) / f (0, 1) := h4
    _ = -(f (0, 1))⁻¹ * g 1 := by rw [div_eq_inv_mul]; ring

/-- Strong duality for the finite-dimensional SDP pair: the primal infimum
equals the dual supremum. -/
theorem sdp_strong_duality (hn : 0 < n) (A : Fin n → Matrix (Fin d) (Fin d) ℂ)
    (hA : ∀ i, (A i).PosSemidef) :
    sInf (sdpPrimalSet d n A) = sSup (sdpDualSet d n A) := by
  have hbddP : BddBelow (sdpPrimalSet d n A) :=
    ⟨0, fun s hs => sdp_weak_duality (sdp_dual_zero_mem A hA) hs⟩
  have hneP : (sdpPrimalSet d n A).Nonempty := sdp_primal_nonempty hn A
  have hbddD : BddAbove (sdpDualSet d n A) := by
    obtain ⟨s, hs⟩ := hneP
    exact ⟨s, fun r hr => sdp_weak_duality hr hs⟩
  have hneD : (sdpDualSet d n A).Nonempty := ⟨0, sdp_dual_zero_mem A hA⟩
  apply le_antisymm
  · by_contra hlt
    push_neg at hlt
    have hεpos : 0 < (sInf (sdpPrimalSet d n A) - sSup (sdpDualSet d n A)) / 2 := by
      linarith
    obtain ⟨r, hrmem, hrgt⟩ := sdp_dual_near_optimal hn A hA hεpos
    have hle := le_csSup hbddD hrmem
    linarith
  · apply csSup_le hneD
    intro r hr
    apply le_csInf hneP
    intro s hs
    exact sdp_weak_duality hr hs


/-- `Cq.toComplex` as an additive monoid morphism (so that it commutes with
finite sums). -/
noncomputable def Cq.toComplexHom : Cq →+ ℂ where
  toFun := Cq.toComplex
  map_zero' := by
    simp [Cq.toComplex, Complex.ext_iff]
  map_add' a b := by
    simp [Cq.toComplex, Complex.ext_iff]

theorem Cq.toComplex_sum {α : Type} (s : Finset α) (f : α → Cq) :
    (∑ i ∈ s, f i).toComplex = ∑ i ∈ s, (f i).toComplex :=
  map_sum Cq.toComplexHom f s

theorem Cq.toComplex_mul (a b : Cq) :
    (a * b).toComplex = a.toComplex * b.toComplex := by
  simp [Cq.toComplex, Complex.ext_iff, Complex.mul_re, Complex.mul_im]

theorem Cq.toComplex_star (a : Cq) :
    (star a).toComplex = star a.toComplex := by
  simp [Cq.toComplex, Complex.ext_iff, Complex.star_def]

theorem Cq.toComplex_smul (q : ℚ) (a : Cq) :
    (q • a).toComplex = (q : ℝ) • a.toComplex := by
  simp [Cq.toComplex, Complex.ext_iff, Complex.smul_re, Complex.smul_im]

/-- The complex reading of a built coefficient `q • v vᴴ` is the real scalar
`q` times `B * Bᴴ`, for `B` the complex reading of the column vector `v`. -/
theorem toC_smul_outer (dd : ℕ) (q : ℚ) (v : Mat) :
    (Mat.smul q (Mat.outer v)).toC dd dd
      = (q : ℝ) • ((v.toC dd v.cols) * (v.toC dd v.cols)ᴴ) := by
  ext i j
  simp only [Mat.toC, Matrix.of_apply, Mat.smul, Mat.outer, Mat.mul, Mat.cT,
    Matrix.smul_apply, Matrix.mul_apply, Matrix.conjTranspose_apply]
  rw [Cq.toComplex_smul]
  congr 1
  rw [Cq.toComplex_sum, ← Fin.sum_univ_eq_sum_range
    (fun k => (v.entry i k * star (v.entry j k)).toComplex) v.cols]
  apply Finset.sum_congr rfl
  intro k _
  rw [Cq.toComplex_mul, Cq.toComplex_star]

/-- Each built coefficient matrix `p_i • v_i v_iᴴ` of the exclusion programs,
read over `ℂ`, is PSD whenever the probability weight is nonnegative. -/
theorem psdC_coeff (dd : ℕ) {q : ℚ} (hq : 0 ≤ q) (v : Mat) :
    ((Mat.smul q (Mat.outer v)).toC dd dd).PosSemidef := by
  rw [toC_smul_outer]
  exact psdC_smul (Matrix.posSemidef_self_mul_conjTranspose _) (by exact_mod_cast hq)

/-- Reading off entry `i` of the built objective-coefficient list. -/
theorem seObjCoeffs_getD (vectors : List Mat) (probs : List ℚ) (i : ℕ)
    (hi : i < vectors.length) :
    (sePrimalProblem vectors probs).objCoeffs.getD i Mat.empty
      = Mat.smul (probs.getD i 0) (Mat.outer (vectors.getD i Mat.empty)) := by
  unfold sePrimalProblem
  dsimp only
  rw [List.getD_eq_getElem?_getD, List.getElem?_map, List.getElem?_range hi]
  rfl

/-- Entries read by `getD` from an entrywise-nonnegative list are
nonnegative. -/
theorem getD_nonneg {p : List ℚ} (hp : ∀ q ∈ p, 0 ≤ q) (i : ℕ) : 0 ≤ p.getD i 0 := by
  rcases lt_or_ge i p.length with h | h
  · rw [List.getD_eq_getElem p 0 h]
    exact hp _ (List.getElem_mem h)
  · rw [List.getD_eq_default p 0 h]

end Duality

/-! ## Claim theorems -/

/-- Claim C1: for every pair of equal-shape square Choi matrices (of perfect
square side `d * d`, as the spec's data model requires of a Choi matrix),
`diamond_norm` builds exactly the Watrous SDP of spec section 4.2 — a `d × d`
Hermitian PSD trace-one variable `rho`, a `d² × d²` Hermitian PSD variable `W`
with `W ⪯ I_d ⊗ rho`, objective `maximise Re Tr(Δᴴ W)` for the Hermitized
difference `Δ` — and returns twice the solver's optimal value for it.  The
solver is universally quantified, so the identity holds whatever the external
backend answers. -/
theorem diamond_norm_builds_watrous (d : ℕ) (J1 J2 : Mat) (solve : DNProblem → ℚ)
    (h1r : J1.rows = d * d) (h1c : J1.cols = d * d)
    (h2r : J2.rows = J1.rows) (h2c : J2.cols = J1.cols) :
    dnBuild J1 J2 = watrousProblem d J1 J2 ∧
    diamond_norm J1 J2 solve = .ok (solve (watrousProblem d J1 J2) * 2) := by
  have hbuild : dnBuild J1 J2 = watrousProblem d J1 J2 := by
    have hs : Nat.sqrt J1.rows = d := by rw [h1r, Nat.sqrt_eq]
    have hobj : Mat.hermitize (J1.sub J2)
        = Mat.smul (1 / 2) ((J1.sub J2).add (J1.sub J2).cT) := by
      unfold Mat.hermitize
      apply Mat.extEq
      · show J1.cols = J1.rows
        rw [h1c, h1r]
      · show J1.rows = J1.cols
        rw [h1c, h1r]
      · intro i j
        show (1 / 2 : ℚ) • (star ((J1.sub J2).entry j i) + (J1.sub J2).entry i j)
            = (1 / 2 : ℚ) • ((J1.sub J2).entry i j + star ((J1.sub J2).entry j i))
        apply Cq.ext <;> simp <;> ring
    simp only [dnBuild, watrousProblem, DNProblem.mk.injEq]
    exact ⟨hs, h1r, hs, hobj⟩
  refine ⟨hbuild, ?_⟩
  unfold diamond_norm
  rw [if_neg (by simp [h2r, h2c]), if_neg (by simp [h1r, h1c]), hbuild]

/-- Witness for C1 at the concrete input `d = 1`, `J1 = J2 = I₁`, with the
trivial solver. -/
theorem diamond_norm_builds_watrous_witness :
    dnBuild (Mat.idMat 1) (Mat.idMat 1) = watrousProblem 1 (Mat.idMat 1) (Mat.idMat 1) ∧
    diamond_norm (Mat.idMat 1) (Mat.idMat 1) dnSolve0 =
      .ok (dnSolve0 (watrousProblem 1 (Mat.idMat 1) (Mat.idMat 1)) * 2) :=
  diamond_norm_builds_watrous 1 (Mat.idMat 1) (Mat.idMat 1) dnSolve0
    (by decide) (by decide) rfl rfl

/-- Claim C5: `diamond_norm` validates its inputs eagerly — for every solver
function (so before any solver variable or constraint is built), it reports
the dimension-mismatch error whenever the two shapes differ, and the
not-square error whenever the shapes agree but are not square.  The first
conjunct carries no squareness hypothesis, so on inputs violating both
conditions the shape-equality check wins: the mismatch error is returned. -/
theorem diamond_norm_validation_order :
    (∀ (J1 J2 : Mat) (solve : DNProblem → ℚ),
      (J1.rows, J1.cols) ≠ (J2.rows, J2.cols) →
      diamond_norm J1 J2 solve = .error .dimensionMismatch) ∧
    (∀ (J1 J2 : Mat) (solve : DNProblem → ℚ),
      (J1.rows, J1.cols) = (J2.rows, J2.cols) → J1.rows ≠ J1.cols →
      diamond_norm J1 J2 solve = .error .notSquare) := by
  constructor
  · intro J1 J2 solve h
    unfold diamond_norm
    rw [if_pos h]
  · intro J1 J2 solve h1 h2
    unfold diamond_norm
    rw [if_neg (by simp [h1]), if_pos h2]

/-- Witness for C5: a 4×2 matrix against a 2×2 matrix yields the
dimension-mismatch error (even though the first matrix is also non-square,
showing the check order), and two 4×2 matrices yield the not-square error. -/
theorem diamond_norm_validation_order_witness :
    diamond_norm (Mat.zeros 4 2) (Mat.zeros 2 2) dnSolve0 = .error .dimensionMismatch ∧
    diamond_norm (Mat.zeros 4 2) (Mat.zeros 4 2) dnSolve0 = .error .notSquare :=
  ⟨diamond_norm_validation_order.1 (Mat.zeros 4 2) (Mat.zeros 2 2) dnSolve0 (by decide),
   diamond_norm_validation_order.2 (Mat.zeros 4 2) (Mat.zeros 4 2) dnSolve0
     (by decide) (by decide)⟩

/-- Claim C7: comparing a square Choi matrix with itself, the Hermitized
difference is exactly zero, the objective `Re Tr(Δᴴ W)` is identically zero —
over every `W`, hence in particular over the feasible set — and therefore, for
any solver whose reported optimum is the objective value at some feasible
point, `diamond_norm(J, J)` returns exactly `0` (the solver-tolerance
idealisation of "approximately 0"). -/
theorem diamond_norm_self_zero (J : Mat) (solve : DNProblem → ℚ)
    (hsq : J.rows = J.cols)
    (hach : ∃ rho w, (dnBuild J J).Feasible rho w ∧
      solve (dnBuild J J) = (dnBuild J J).objective w) :
    diamond_norm J J solve = .ok 0 ∧
    (∀ i j, ((dnBuild J J).objParam).entry i j = 0) ∧
    (∀ w, (dnBuild J J).objective w = 0) := by
  refine ⟨?_, dn_self_objParam_zero J, fun w => dn_self_obj_zero J w⟩
  obtain ⟨rho, w, _, hsv⟩ := hach
  unfold diamond_norm
  rw [if_neg (by simp), if_neg (by simp [hsq])]
  rw [hsv, dn_self_obj_zero J w]
  norm_num

/-- Witness for C7 at `J = I₁` with the trivial solver; the achievement
hypothesis is discharged by the feasible point `(rho, W) = (I₁, 0)`. -/
theorem diamond_norm_self_zero_witness :
    diamond_norm (Mat.idMat 1) (Mat.idMat 1) dnSolve0 = .ok 0 ∧
    (∀ i j, ((dnBuild (Mat.idMat 1) (Mat.idMat 1)).objParam).entry i j = 0) ∧
    (∀ w, (dnBuild (Mat.idMat 1) (Mat.idMat 1)).objective w = 0) :=
  diamond_norm_self_zero (Mat.idMat 1) dnSolve0 rfl
    ⟨Mat.idMat 1, Mat.zeros 1 1, dn_feasible_example,
     (dn_self_obj_zero (Mat.idMat 1) (Mat.zeros 1 1)).symm⟩

/-- Claim C8: `diamond_norm` never checks that the side length is a perfect
square.  For square equal-shape inputs of side `s` with `s` not a perfect
square it raises no validation error and proceeds, computing
`dim = int(sqrt(s))` by integer truncation; the Kronecker factor
`I_dim ⊗ rho` of the Löwner constraint then has side `dim * dim ≠ s`,
mismatched against the `s × s` variable `W`. -/
theorem diamond_norm_no_perfect_square_check (s : ℕ) (J1 J2 : Mat)
    (solve : DNProblem → ℚ)
    (h1r : J1.rows = s) (h1c : J1.cols = s) (h2r : J2.rows = s) (h2c : J2.cols = s)
    (hns : Nat.sqrt s * Nat.sqrt s ≠ s) :
    diamond_norm J1 J2 solve = .ok (solve (dnBuild J1 J2) * 2) ∧
    (dnBuild J1 J2).rhoDim = Nat.sqrt s ∧
    (dnBuild J1 J2).kronId * (dnBuild J1 J2).rhoDim ≠ (dnBuild J1 J2).wDim := by
  refine ⟨?_, ?_, ?_⟩
  · unfold diamond_norm
    rw [if_neg (by simp [h1r, h1c, h2r, h2c]), if_neg (by simp [h1r, h1c])]
  · show Nat.sqrt J1.rows = Nat.sqrt s
    rw [h1r]
  · show Nat.sqrt J1.rows * Nat.sqrt J1.rows ≠ J1.rows
    rw [h1r]
    exact hns

/-- Witness for C8 at the concrete side `s = 3` (two zero 3×3 matrices):
`Nat.sqrt 3 = 1`, so the constructed Kronecker factor is 1×1 against the 3×3
variable `W`, and no error is raised. -/
theorem diamond_norm_no_perfect_square_check_witness :
    diamond_norm (Mat.zeros 3 3) (Mat.zeros 3 3) dnSolve0 =
      .ok (dnSolve0 (dnBuild (Mat.zeros 3 3) (Mat.zeros 3 3)) * 2) ∧
    (dnBuild (Mat.zeros 3 3) (Mat.zeros 3 3)).rhoDim = Nat.sqrt 3 ∧
    (dnBuild (Mat.zeros 3 3) (Mat.zeros 3 3)).kronId *
        (dnBuild (Mat.zeros 3 3) (Mat.zeros 3 3)).rhoDim ≠
      (dnBuild (Mat.zeros 3 3) (Mat.zeros 3 3)).wDim :=
  diamond_norm_no_perfect_square_check 3 (Mat.zeros 3 3) (Mat.zeros 3 3) dnSolve0
    rfl rfl rfl rfl
    (by rw [show Nat.sqrt 3 = 1 from (Nat.eq_sqrt.mpr (by norm_num)).symm]; decide)

/-- Claim C6: `state_exclusion` reports the dimension-mismatch error whenever
the vectors do not all share the first vector's shape.  The conclusion holds
for every probability argument, solver name, mode string and solver function,
so the validation happens before any optimization problem is constructed. -/
theorem state_exclusion_shape_validation (vectors : List Mat)
    (probs : Option (List ℚ)) (solver primal_dual : String)
    (solveP : String → SEPrimalProb → SEPrimalSolution)
    (solveD : String → SEDualProb → SEDualSolution)
    (hbad : ¬ seShapeOK vectors) :
    state_exclusion vectors probs solver primal_dual solveP solveD =
      .error .dimensionMismatch := by
  unfold state_exclusion
  rw [if_pos hbad]

/-- Witness for C6: a 2-entry column vector mixed with a 4-entry column
vector. -/
theorem state_exclusion_shape_validation_witness :
    state_exclusion [Mat.zeros 2 1, Mat.zeros 4 1] none seSolverDefault
      sePrimalDualDefault seSolveP0 seSolveD0 = .error .dimensionMismatch :=
  state_exclusion_shape_validation [Mat.zeros 2 1, Mat.zeros 4 1] none
    seSolverDefault sePrimalDualDefault seSolveP0 seSolveD0 (by decide)

/-- Claim C9: the `primal_dual` parameter defaults to `"dual"`, and every
mode string other than exactly `"primal"` silently takes the dual path: the
call is indistinguishable from a call with mode `"dual"`, and no error is
raised for an unrecognized mode. -/
theorem state_exclusion_mode_dispatch :
    sePrimalDualDefault = "dual" ∧
    ∀ (vectors : List Mat) (probs : Option (List ℚ)) (solver pd : String)
      (solveP : String → SEPrimalProb → SEPrimalSolution)
      (solveD : String → SEDualProb → SEDualSolution),
      pd ≠ "primal" →
      state_exclusion vectors probs solver pd solveP solveD =
        state_exclusion vectors probs solver "dual" solveP solveD := by
  refine ⟨rfl, ?_⟩
  intro vectors probs solver pd solveP solveD hpd
  unfold state_exclusion
  by_cases h : ¬ seShapeOK vectors
  · rw [if_pos h, if_pos h]
  · rw [if_neg h, if_neg h]
    cases vectors with
    | nil => rfl
    | cons v0 rest =>
      dsimp only
      rw [if_neg hpd, if_neg (show ¬ ("dual" = "primal") from by decide)]

/-- Witness for C9: the misspelled mode `"duall"` behaves exactly like
`"dual"` on a concrete ensemble. -/
theorem state_exclusion_mode_dispatch_witness :
    sePrimalDualDefault = "dual" ∧
    state_exclusion [basisVec 2 0, basisVec 2 1] none seSolverDefault "duall"
        seSolveP0 seSolveD0 =
      state_exclusion [basisVec 2 0, basisVec 2 1] none seSolverDefault "dual"
        seSolveP0 seSolveD0 :=
  ⟨state_exclusion_mode_dispatch.1,
   state_exclusion_mode_dispatch.2 [basisVec 2 0, basisVec 2 1] none
     seSolverDefault "duall" seSolveP0 seSolveD0 (by decide)⟩

/-- Claim C4: in dual mode, on an ensemble of `n` equal-shape vectors with
probability list `p`, `state_exclusion` builds the dual program whose `i`-th
constraint bound is `p[i] * v_i v_iᴴ` for `i = 0, …, n-1` (so the constraints
read `Y ⪯ p_i v_i v_iᴴ`, the objective being `maximise Tr Y` per the
`SEDualProb` reading), and returns the solver's optimal value together with
the dual values of these `n` per-`i` constraints — one operator per ensemble
member, taken from `constraintDual`, never from the variable value `Y`
(`yValue` does not occur in the result). -/
theorem state_exclusion_dual_constraint_duals (v0 : Mat) (rest : List Mat)
    (p : List ℚ) (solver : String)
    (solveP : String → SEPrimalProb → SEPrimalSolution)
    (solveD : String → SEDualProb → SEDualSolution)
    (hsh : seShapeOK (v0 :: rest)) :
    (seDualProblem (v0 :: rest) p).bounds =
      (List.range (v0 :: rest).length).map (fun i =>
        Mat.smul (p.getD i 0) (Mat.outer ((v0 :: rest).getD i Mat.empty))) ∧
    state_exclusion (v0 :: rest) (some p) solver "dual" solveP solveD =
      .ok { value := (solveD solver (seDualProblem (v0 :: rest) p)).value
            operators := (List.range (v0 :: rest).length).map
              (solveD solver (seDualProblem (v0 :: rest) p)).constraintDual } := by
  refine ⟨rfl, ?_⟩
  unfold state_exclusion
  rw [if_neg (not_not_intro hsh)]
  dsimp only
  rw [if_neg (show ¬ ("dual" = "primal") from by decide)]
  rfl

/-- Witness for C4 on the two-element standard-basis ensemble in dimension 2
with explicit probabilities `[1/2, 1/2]`. -/
theorem state_exclusion_dual_constraint_duals_witness :
    (seDualProblem [basisVec 2 0, basisVec 2 1] [1/2, 1/2]).bounds =
      (List.range ([basisVec 2 0, basisVec 2 1] : List Mat).length).map (fun i =>
        Mat.smul (([(1 : ℚ)/2, 1/2]).getD i 0)
          (Mat.outer (([basisVec 2 0, basisVec 2 1] : List Mat).getD i Mat.empty))) ∧
    state_exclusion [basisVec 2 0, basisVec 2 1] (some [1/2, 1/2]) seSolverDefault
        "dual" seSolveP0 seSolveD0 =
      .ok { value := (seSolveD0 seSolverDefault
              (seDualProblem [basisVec 2 0, basisVec 2 1] [1/2, 1/2])).value
            operators := (List.range ([basisVec 2 0, basisVec 2 1] : List Mat).length).map
              (seSolveD0 seSolverDefault
                (seDualProblem [basisVec 2 0, basisVec 2 1] [1/2, 1/2])).constraintDual } :=
  state_exclusion_dual_constraint_duals (basisVec 2 0) [basisVec 2 1] [1/2, 1/2]
    seSolverDefault seSolveP0 seSolveD0 (by decide)

/-- Claim C3 (code bug evidence): with the probability argument omitted, the
code derives the length of the default uniform distribution from
`vectors[0].shape[0]` — the vector DIMENSION — not from the ensemble size.
On the failing input of two 4-dimensional basis vectors, the default is
`[1/4, 1/4, 1/4, 1/4]` (four entries for a two-member ensemble) instead of
the `[1/2, 1/2]` the claim and the spec's section 9 require, and the weight
the dual program attaches to the first constraint — made observable in the
returned optimal value by the echo solver `seEchoD` — is `1/4`, not `1/2`. -/
theorem state_exclusion_default_probs_dimension_bug :
    seDefaultProbs (basisVec 4 0) = [1/4, 1/4, 1/4, 1/4] ∧
    (seDefaultProbs (basisVec 4 0)).length = 4 ∧
    ([basisVec 4 0, basisVec 4 1] : List Mat).length = 2 ∧
    seDefaultProbs (basisVec 4 0) ≠ List.replicate 2 ((1 : ℚ) / 2) ∧
    (state_exclusion [basisVec 4 0, basisVec 4 1] none seSolverDefault "dual"
        seSolveP0 seEchoD).toOption.map SEReturn.value = some (1/4) := by
  have h1 : seDefaultProbs (basisVec 4 0) = List.replicate 4 ((1 : ℚ) / 4) := by
    unfold seDefaultProbs basisVec
    norm_num
  refine ⟨?_, ?_, by decide, ?_, ?_⟩
  · rw [h1]
    simp [List.replicate_succ]
  · rw [h1]
    simp
  · rw [h1]
    intro hEq
    have hlen := congrArg List.length hEq
    simp at hlen
  · have hred : state_exclusion [basisVec 4 0, basisVec 4 1] none seSolverDefault "dual"
        seSolveP0 seEchoD
        = .ok (min_error_dual [basisVec 4 0, basisVec 4 1]
            (seDefaultProbs (basisVec 4 0)) seSolverDefault seEchoD) := by
      unfold state_exclusion
      rw [if_neg (not_not_intro (by decide))]
      dsimp only
      rw [if_neg (show ¬ ("dual" = "primal") from by decide)]
      rfl
    rw [hred]
    simp only [min_error_dual, seEchoD, Except.toOption, Option.map, Option.some.injEq]
    rw [h1]
    norm_num [seDualProblem, basisVec, Mat.outer, Mat.mul, Mat.cT, Mat.smul, Mat.empty,
      List.range_succ, List.replicate_succ, Finset.sum_range_one]

/-- Claim C10: when `dim` is a Python `int`, `realignment` first checks that
the row count is divisible by `dim` (raising the `InvalidDim` `ValueError`
otherwise, first conjunct below in contrapositive form), and then overwrites
the partition with the constant `[[1], [4]]`: for EVERY divisor value `d` the
external reshaping pipeline is invoked with the same fixed partition data
`dim = [[1, 4], [1, 4]]`, `dim_x = [[4, 1], [1, 4]]`, `dim_y = [[1, 1], [4, 4]]`,
independent of `d`. -/
theorem realignment_int_dim_constant_partition :
    (∀ (input : Mat) (d : ℕ), input.rows % d = 0 →
      realignment input (some (.rint d)) =
        .ok { input := input
              dim := [[1, 4], [1, 4]]
              dim_x := [[4, 1], [1, 4]]
              dim_y := [[1, 1], [4, 4]] }) ∧
    (∀ (input : Mat) (d : ℕ), input.rows % d ≠ 0 →
      realignment input (some (.rint d)) = .error "InvalidDim:") := by
  constructor
  · intro input d h
    unfold realignment
    dsimp only
    rw [if_neg (not_not_intro h)]
    rfl
  · intro input d h
    unfold realignment
    dsimp only
    rw [if_pos h]

/-- Witness for C10 on a 4×4 input: `d = 2` divides 4 and produces the fixed
partition; `d = 3` does not divide 4 and produces the error. -/
theorem realignment_int_dim_constant_partition_witness :
    realignment (Mat.zeros 4 4) (some (.rint 2)) =
      .ok { input := Mat.zeros 4 4
            dim := [[1, 4], [1, 4]]
            dim_x := [[4, 1], [1, 4]]
            dim_y := [[1, 1], [4, 4]] } ∧
    realignment (Mat.zeros 4 4) (some (.rint 3)) = .error "InvalidDim:" :=
  ⟨realignment_int_dim_constant_partition.1 (Mat.zeros 4 4) 2 (by decide),
   realignment_int_dim_constant_partition.2 (Mat.zeros 4 4) 3 (by decide)⟩

/-- Claim C2: the primal and dual programs built by `state_exclusion` (via
`_min_error_primal` and `_min_error_dual`) from the same ensemble and the same
nonnegative probability list form a primal-dual SDP pair with zero duality
gap: the constructed coefficient and bound matrix lists coincide, and, read
over `ℂ`, the infimum of the primal objective values equals the supremum of
the dual objective values.  Strong duality is proved by a separating-
hyperplane argument (`sdp_strong_duality`), using the uniform POVM
`M i = (1/n) I` as the Slater point; so, solver tolerances aside, the two
modes return the same optimal value. -/
theorem state_exclusion_duality_gap_zero (v0 : Mat) (rest : List Mat) (p : List ℚ)
    (hp : ∀ q ∈ p, 0 ≤ q) :
    (sePrimalProblem (v0 :: rest) p).objCoeffs = (seDualProblem (v0 :: rest) p).bounds ∧
    sInf (sdpPrimalSet (sePrimalProblem (v0 :: rest) p).dim (sePrimalProblem (v0 :: rest) p).n
        (sePrimalProblem (v0 :: rest) p).coeffC)
      = sSup (sdpDualSet (seDualProblem (v0 :: rest) p).dim (v0 :: rest).length
        ((seDualProblem (v0 :: rest) p).boundC (v0 :: rest).length)) := by
  have hA : ∀ i : Fin (sePrimalProblem (v0 :: rest) p).n,
      ((sePrimalProblem (v0 :: rest) p).coeffC i).PosSemidef := by
    intro i
    have hi : (i : ℕ) < (v0 :: rest).length := i.2
    show (((sePrimalProblem (v0 :: rest) p).objCoeffs.getD i Mat.empty).toC _ _).PosSemidef
    rw [seObjCoeffs_getD _ _ _ hi]
    exact psdC_coeff _ (getD_nonneg hp _) _
  refine ⟨rfl, ?_⟩
  have hBC : (seDualProblem (v0 :: rest) p).boundC (v0 :: rest).length
      = (sePrimalProblem (v0 :: rest) p).coeffC := rfl
  rw [hBC]
  exact sdp_strong_duality (Nat.succ_pos rest.length) _ hA

/-- Concrete instantiation of claim C2: the two-state qubit ensemble with the
uniform probability list has identical primal/dual data and zero duality
gap. -/
theorem state_exclusion_duality_gap_zero_witness :
    (∀ q ∈ [(1 : ℚ)/2, 1/2], 0 ≤ q) ∧
    ((sePrimalProblem [basisVec 2 0, basisVec 2 1] [1/2, 1/2]).objCoeffs
        = (seDualProblem [basisVec 2 0, basisVec 2 1] [1/2, 1/2]).bounds ∧
      sInf (sdpPrimalSet (sePrimalProblem [basisVec 2 0, basisVec 2 1] [1/2, 1/2]).dim
          (sePrimalProblem [basisVec 2 0, basisVec 2 1] [1/2, 1/2]).n
          (sePrimalProblem [basisVec 2 0, basisVec 2 1] [1/2, 1/2]).coeffC)
        = sSup (sdpDualSet (seDualProblem [basisVec 2 0, basisVec 2 1] [1/2, 1/2]).dim
          ([basisVec 2 0, basisVec 2 1] : List Mat).length
          ((seDualProblem [basisVec 2 0, basisVec 2 1] [1/2, 1/2]).boundC
            ([basisVec 2 0, basisVec 2 1] : List Mat).length))) := by
  have hp : ∀ q ∈ [(1 : ℚ)/2, 1/2], 0 ≤ q := by
    intro q hq
    rcases List.mem_cons.mp hq with rfl | hq2
    · norm_num
    · rcases List.mem_cons.mp hq2 with rfl | hq3
      · norm_num
      · exact absurd hq3 (List.not_mem_nil q)
  exact ⟨hp, state_exclusion_duality_gap_zero (basisVec 2 0) [basisVec 2 1] [1/2, 1/2] hp⟩
